import Mathlib

/-
Verification of the six-degrees pathfinder backend.

The development shallowly embeds the core subsystems of the repository:

* the TTL lookup cache (`backend/src/services/cache.ts`, `CacheService`
  in the unnamed sources): `cacheGet`, `cacheSet`, `cacheWrap`;
* the TMDB request helper with its 429 retry loop
  (`backend/src/services/tmdb.ts`, `TMDBService.request`): `request`;
* the path cache pair key (documented as sorted actor ids; the cache
  module holding it is not part of the sources, so it is modelled from
  the spec): `pathKey`, `getPathResult`, `setPathResult`;
* the bidirectional, three-phase pathfinder (`PathfinderService.findPath`
  with its inner `tryBidirectionalBFS` / `expandDirection` closures and
  `buildFinalPath`): `castLoop`, `processMovie`, `runBatch`, `movieBatches`,
  `expandDirection`, `bfsPass`, `bfsLoop`, `tryBidirectionalBFS`, `findPath`.

The metadata provider is abstracted as a record of pure functions returning
`Except Unit` values; the JavaScript `await`s inside one batch are modelled
by processing the batch movies sequentially in provider order, which is the
schedule the code itself relies on for its first-match-in-batch-order
tie-break.  The lookup-cache wrappers around provider calls
(`getCachedActorDetails` and friends) are value-transparent for a
deterministic provider, so the model calls the provider directly.
-/

namespace SixDegrees

/-! ## Data model (backend/src/types/index.ts) -/

structure Actor where
  id : Nat
  name : String
  profile_path : Option String := none
deriving DecidableEq

structure Movie where
  id : Nat
  title : String
  release_date : Option String := none
  poster_path : Option String := none
deriving DecidableEq

structure CastMember where
  id : Nat
  name : String
  character : Option String := none
  order : Option Nat := none
deriving DecidableEq

inductive PathStep
  | actor (data : Actor)
  | movie (data : Movie)
deriving DecidableEq

structure PathResult where
  path : List PathStep
  degrees : Int
deriving DecidableEq

/-! ## Association-list model of a JavaScript Map -/

def alookup {α β : Type} [DecidableEq α] : List (α × β) → α → Option β
  | [], _ => none
  | (k, v) :: rest, key => if k = key then some v else alookup rest key

def aremove {α β : Type} [DecidableEq α] : List (α × β) → α → List (α × β)
  | [], _ => []
  | (k, v) :: rest, key => if k = key then aremove rest key else (k, v) :: aremove rest key

def ainsert {α β : Type} [DecidableEq α] (l : List (α × β)) (key : α) (v : β) : List (α × β) :=
  (key, v) :: aremove l key

def keys {α β : Type} (l : List (α × β)) : List α := l.map (fun kv => kv.1)

/-! ## Lookup cache with TTL (backend/src/services/cache.ts) -/

structure CacheEntry (T : Type) where
  data : T
  expiresAt : Nat
deriving DecidableEq

structure CacheState (T : Type) where
  entries : List (String × CacheEntry T)
  hits : Nat
  misses : Nat
deriving DecidableEq

/-- Model of `InMemoryCache.get` / `CacheService.get`: an entry whose expiry has
passed (`Date.now() > entry.expiresAt`) is deleted and counted as a miss;
otherwise the stored data is returned. -/
def cacheGet {T : Type} (st : CacheState T) (now : Nat) (key : String) :
    Option T × CacheState T :=
  match alookup st.entries key with
  | none => (none, { st with misses := st.misses + 1 })
  | some entry =>
    if now > entry.expiresAt then
      (none, { st with entries := aremove st.entries key, misses := st.misses + 1 })
    else
      (some entry.data, { st with hits := st.hits + 1 })

/-- Model of `CacheService.set`: stores the value with `expiresAt = now + ttlSeconds * 1000`,
overwriting any existing entry for the key. -/
def cacheSet {T : Type} (st : CacheState T) (now : Nat) (key : String) (v : T)
    (ttlMs : Nat) : CacheState T :=
  { st with entries := ainsert st.entries key ⟨v, now + ttlMs⟩ }

/-- Model of `CacheService.wrap`: check the cache, on a miss run the fetcher and store
its result.  A fetcher error propagates and nothing is stored. -/
def cacheWrap {T E : Type} (st : CacheState T) (now : Nat) (key : String)
    (ttlSeconds : Nat) (fetcher : Except E T) : Except E T × CacheState T :=
  match cacheGet st now key with
  | (some v, st2) => (Except.ok v, st2)
  | (none, st2) =>
    match fetcher with
    | Except.error e => (Except.error e, st2)
    | Except.ok v => (Except.ok v, cacheSet st2 now key v (ttlSeconds * 1000))

/-! ## TMDB request helper (backend/src/services/tmdb.ts) -/

inductive HttpOutcome (T : Type)
  | ok (value : T)
  | rateLimited
  | httpError
deriving DecidableEq

/-- Model of `TMDBService.request`.  Here `responses n` is the outcome of the n-th HTTP
attempt.  A 429 outcome waits 1000 ms and retries recursively with no cap;
`fuel` bounds the number of attempts the model is willing to unfold, and a
run that exhausts every `fuel` is a non-terminating execution.  The second
component of a completed run is the total retry delay in milliseconds. -/
def request {T : Type} (responses : Nat → HttpOutcome T) :
    Nat → Nat → Nat → Option (Except Unit T × Nat)
  | _, _, 0 => none
  | attempt, delayMs, fuel + 1 =>
    match responses attempt with
    | HttpOutcome.ok v => some (Except.ok v, delayMs)
    | HttpOutcome.httpError => some (Except.error (), delayMs)
    | HttpOutcome.rateLimited => request responses (attempt + 1) (delayMs + 1000) fuel

/-! ## Path cache pair key

The cache module used by `PathfinderService` (`getPathResult` /
`setPathResult`) is not among the sources; only its callers and the
implementation notes are.  The key construction is therefore modelled from
the spec. -/

/-- Modelled from the spec: the path-cache pair key canonicalizes the two
actor ids into numerically ascending order ("Path cache keys use sorted
actor IDs to ensure same key regardless of order").  The missing piece is
the cache module with `getPathResult` / `setPathResult` used by
`backend/src/services/pathfinder.ts`. -/
def pathKey (a b : Nat) : Nat × Nat :=
  if a ≤ b then (a, b) else (b, a)

abbrev PathCache := List ((Nat × Nat) × PathResult)

def getPathResult (s : PathCache) (a b : Nat) : Option PathResult :=
  alookup s (pathKey a b)

def setPathResult (s : PathCache) (a b : Nat) (r : PathResult) : PathCache :=
  ainsert s (pathKey a b) r

/-! ## Pathfinder (backend/src/services/pathfinder.ts, bidirectional version) -/

structure Provider where
  getActorDetails : Nat → Except Unit Actor
  getActorFilmography : Nat → Except Unit (List Movie)
  getMovieCast : Nat → Except Unit (List CastMember)

structure QueueItem where
  actorId : Nat
  path : List PathStep
deriving DecidableEq

abbrev VList := List (Nat × QueueItem)

inductive FindError
  | notFound
  | upstream
deriving DecidableEq

def isActorStep : PathStep → Bool
  | PathStep.actor _ => true
  | PathStep.movie _ => false

/-- Model of `path.filter(s => s.type === 'actor').length`. -/
def countActors (p : List PathStep) : Nat :=
  (p.filter isActorStep).length

/-- The start-of-side actor record used when the partial path is empty:
`isForward ? startActor : endActor`. -/
def originData (isFwd : Bool) (startA endA : Actor) : Actor :=
  if isFwd then startA else endA

/-- The far-end actor record: `isForward ? endActor : startActor`. -/
def targetData (isFwd : Bool) (startA endA : Actor) : Actor :=
  if isFwd then endA else startA

/-- Path extension as performed for both a meeting point and an enqueue:
`[...current.path, {movie}]`, unshift the side's origin actor when the
partial path is empty, then push the next actor. -/
def extendPath (base : List PathStep) (origin : Actor) (m : Movie) (a : Actor) :
    List PathStep :=
  (if base.isEmpty then [PathStep.actor origin] else base) ++
    [PathStep.movie m, PathStep.actor a]

/-- One step of the descending loop that reverses the other side's partial
path: movies are kept, actors are kept unless they are the meeting actor or
the destination actor. -/
def reduceStep (meetId : Nat) (endData : Actor) : PathStep → Option PathStep
  | PathStep.movie m => some (PathStep.movie m)
  | PathStep.actor a =>
    if a.id ≠ meetId ∧ a.id ≠ endData.id then some (PathStep.actor a) else none

/-- The reversed other-side path: iterate `pathFromOther` from the back,
keep movies and interior actors, then append the destination actor when the
other path was nonempty. -/
def reversedReduced (pathFromOther : List PathStep) (meetId : Nat) (endData : Actor) :
    List PathStep :=
  pathFromOther.reverse.filterMap (reduceStep meetId endData) ++
    (if pathFromOther.isEmpty then [] else [PathStep.actor endData])

/-- The combined path assembled at a meeting point. -/
def meetingPath (current : QueueItem) (origin : Actor) (m : Movie)
    (meetingActor : Actor) (other : QueueItem) (endData : Actor) (meetId : Nat) :
    List PathStep :=
  extendPath current.path origin m meetingActor ++
    reversedReduced other.path meetId endData

inductive CastOut
  | found (steps : List PathStep) (deg : Int)
  | nofind
deriving DecidableEq

/-- The per-movie loop over `topCast`.  Skips the current actor, detects a
meeting with the other side's visited map, otherwise enqueues unvisited cast
members.  An actor-details fetch error is caught by the surrounding
try/catch, which abandons the rest of this movie's cast but keeps the
mutations already made. -/
def castLoop (P : Provider) (isFwd : Bool) (startA endA : Actor)
    (current : QueueItem) (movie : Movie) (otherVis : VList) :
    List CastMember → VList → List QueueItem → CastOut × VList × List QueueItem
  | [], vis, q => (CastOut.nofind, vis, q)
  | c :: rest, vis, q =>
    if c.id = current.actorId then
      castLoop P isFwd startA endA current movie otherVis rest vis q
    else
      match alookup otherVis c.id with
      | some other =>
        match P.getActorDetails c.id with
        | Except.error _ => (CastOut.nofind, vis, q)
        | Except.ok meetingActor =>
          (CastOut.found
            (meetingPath current (originData isFwd startA endA) movie
              meetingActor other (targetData isFwd startA endA) c.id)
            ((countActors (meetingPath current (originData isFwd startA endA) movie
              meetingActor other (targetData isFwd startA endA) c.id) : Int) - 1),
           vis, q)
      | none =>
        if (alookup vis c.id).isSome then
          castLoop P isFwd startA endA current movie otherVis rest vis q
        else
          match P.getActorDetails c.id with
          | Except.error _ => (CastOut.nofind, vis, q)
          | Except.ok nextActor =>
            castLoop P isFwd startA endA current movie otherVis rest
              ((c.id, ⟨c.id, extendPath current.path (originData isFwd startA endA)
                movie nextActor⟩) :: vis)
              (q ++ [⟨c.id, extendPath current.path (originData isFwd startA endA)
                movie nextActor⟩])

/-- Process one movie of a batch: fetch its cast (an error is caught and the
movie contributes nothing), cap it at `maxCast`, and run the cast loop. -/
def processMovie (P : Provider) (isFwd : Bool) (startA endA : Actor)
    (current : QueueItem) (maxCast : Nat) (otherVis : VList) (movie : Movie)
    (vis : VList) (q : List QueueItem) : CastOut × VList × List QueueItem :=
  match P.getMovieCast movie.id with
  | Except.error _ => (CastOut.nofind, vis, q)
  | Except.ok cast =>
    castLoop P isFwd startA endA current movie otherVis (cast.take maxCast) vis q

/-- Run the movies of one batch.  All of them are processed (the code awaits
the whole `Promise.all`), and the first `found` in batch order wins. -/
def runBatch (P : Provider) (isFwd : Bool) (startA endA : Actor)
    (current : QueueItem) (maxCast : Nat) (otherVis : VList) :
    List Movie → VList → List QueueItem →
      Option (List PathStep × Int) × VList × List QueueItem
  | [], vis, q => (none, vis, q)
  | m :: rest, vis, q =>
    match processMovie P isFwd startA endA current maxCast otherVis m vis q with
    | (out, vis2, q2) =>
      match runBatch P isFwd startA endA current maxCast otherVis rest vis2 q2 with
      | (restOut, vis3, q3) =>
        (match out with
         | CastOut.found p d => some (p, d)
         | CastOut.nofind => restOut, vis3, q3)

/-- The batched loop over `moviesToCheck` with `batchSize = 5`.  The first
argument is recursion fuel; the callers pass the length of the movie list,
which bounds the number of batches. -/
def movieBatches (P : Provider) (isFwd : Bool) (startA endA : Actor)
    (current : QueueItem) (maxCast : Nat) (otherVis : VList) :
    Nat → List Movie → VList → List QueueItem →
      Option (List PathStep × Int) × VList × List QueueItem
  | _, [], vis, q => (none, vis, q)
  | 0, _, vis, q => (none, vis, q)
  | fuel + 1, m :: ms, vis, q =>
    match runBatch P isFwd startA endA current maxCast otherVis ((m :: ms).take 5) vis q with
    | (out, vis2, q2) =>
      match out with
      | some f => (some f, vis2, q2)
      | none =>
        movieBatches P isFwd startA endA current maxCast otherVis fuel
          ((m :: ms).drop 5) vis2 q2

/-- Model of `buildFinalPath`: re-hydrate actor steps that carry a bare id (a truthy
`id` and a falsy `name`); an actor-details error here propagates. -/
def buildFinalPath (P : Provider) : List PathStep → Except Unit (List PathStep)
  | [] => Except.ok []
  | PathStep.actor a :: rest =>
    if a.id ≠ 0 ∧ a.name = "" then
      match P.getActorDetails a.id with
      | Except.error e => Except.error e
      | Except.ok a2 =>
        match buildFinalPath P rest with
        | Except.error e => Except.error e
        | Except.ok r => Except.ok (PathStep.actor a2 :: r)
    else
      match buildFinalPath P rest with
      | Except.error e => Except.error e
      | Except.ok r => Except.ok (PathStep.actor a :: r)
  | PathStep.movie m :: rest =>
    match buildFinalPath P rest with
    | Except.error e => Except.error e
    | Except.ok r => Except.ok (PathStep.movie m :: r)

/-- Model of `expandDirection`: pop the oldest item, skip it when it has reached the
depth limit, fetch its filmography (note: this fetch is NOT inside a
try/catch, so an error propagates), and process the capped movie list in
batches of 5.  A found raw path is normalized through `buildFinalPath`. -/
def expandDirection (P : Provider) (maxMovies maxCast maxDepth : Nat)
    (startA endA : Actor) (isFwd : Bool) (q : List QueueItem)
    (vis otherVis : VList) :
    Except Unit (Option PathResult × VList × List QueueItem) :=
  match q with
  | [] => Except.ok (none, vis, q)
  | current :: qrest =>
    if countActors current.path ≥ maxDepth then
      Except.ok (none, vis, qrest)
    else
      match P.getActorFilmography current.actorId with
      | Except.error e => Except.error e
      | Except.ok actorMovies =>
        match movieBatches P isFwd startA endA current maxCast otherVis
            (actorMovies.take maxMovies).length (actorMovies.take maxMovies) vis qrest with
        | (some (p, d), vis2, q2) =>
          match buildFinalPath P p with
          | Except.error e => Except.error e
          | Except.ok fp => Except.ok (some ⟨fp, d⟩, vis2, q2)
        | (none, vis2, q2) => Except.ok (none, vis2, q2)

/-- The mutable state of one `tryBidirectionalBFS` attempt.  `pops` is an
instrumentation counter recording how many frontier items have been shifted
off either queue; it does not influence control flow. -/
structure BfsState where
  qF : List QueueItem
  qB : List QueueItem
  visF : VList
  visB : VList
  iterations : Nat
  pops : Nat
deriving DecidableEq

/-- The backward half of one while-loop pass: expand the backward frontier
when it is nonempty. -/
def bfsBackward (P : Provider) (maxMovies maxCast maxDepth : Nat)
    (startA endA : Actor) (st : BfsState) :
    Except Unit (Option PathResult × BfsState) :=
  match st.qB with
  | [] => Except.ok (none, st)
  | _ :: _ =>
    match expandDirection P maxMovies maxCast maxDepth startA endA false
        st.qB st.visB st.visF with
    | Except.error e => Except.error e
    | Except.ok (res, visB2, qB2) =>
      Except.ok (res, { st with qB := qB2, visB := visB2, pops := st.pops + 1 })

/-- One pass of the while loop: `iterations++`, expand forward when the
forward frontier is nonempty (returning on a found path), then expand
backward. -/
def bfsPass (P : Provider) (maxMovies maxCast maxDepth : Nat)
    (startA endA : Actor) (st : BfsState) :
    Except Unit (Option PathResult × BfsState) :=
  match st.qF with
  | [] =>
    bfsBackward P maxMovies maxCast maxDepth startA endA
      { st with iterations := st.iterations + 1 }
  | _ :: _ =>
    match expandDirection P maxMovies maxCast maxDepth startA endA true
        st.qF st.visF st.visB with
    | Except.error e => Except.error e
    | Except.ok (some r, visF2, qF2) =>
      Except.ok (some r,
        { st with
            iterations := st.iterations + 1
            qF := qF2
            visF := visF2
            pops := st.pops + 1 })
    | Except.ok (none, visF2, qF2) =>
      bfsBackward P maxMovies maxCast maxDepth startA endA
        { st with
            iterations := st.iterations + 1
            qF := qF2
            visF := visF2
            pops := st.pops + 1 }

/-- The while loop `while ((queueForward.length > 0 || queueBackward.length > 0)
&& iterations < maxIterationsLimit)`.  `rem` is the remaining iteration
budget `maxIterationsLimit - iterations`. -/
def bfsLoop (P : Provider) (maxMovies maxCast maxDepth : Nat)
    (startA endA : Actor) :
    Nat → BfsState → Except Unit (Option PathResult × BfsState)
  | 0, st => Except.ok (none, st)
  | rem + 1, st =>
    if st.qF.isEmpty ∧ st.qB.isEmpty then
      Except.ok (none, st)
    else
      match bfsPass P maxMovies maxCast maxDepth startA endA st with
      | Except.error e => Except.error e
      | Except.ok (some r, st2) => Except.ok (some r, st2)
      | Except.ok (none, st2) =>
        bfsLoop P maxMovies maxCast maxDepth startA endA rem st2

/-- One escalation phase: fresh queues and visited maps seeded with the two
endpoint actors, then the alternating loop under the given budget. -/
def tryBidirectionalBFS (P : Provider) (a1 a2 : Nat) (startA endA : Actor)
    (maxMovies maxCast maxDepth maxIterations : Nat) :
    Except Unit (Option PathResult × BfsState) :=
  bfsLoop P maxMovies maxCast maxDepth startA endA maxIterations
    { qF := [⟨a1, []⟩], qB := [⟨a2, []⟩],
      visF := [(a1, ⟨a1, []⟩)], visB := [(a2, ⟨a2, []⟩)],
      iterations := 0, pops := 0 }

/-- The direct-connection predicate for one movie of the filmography prefix:
the full cast is fetched (an error makes the movie a non-match) and searched
for the target id. -/
def directHit (P : Provider) (a2 : Nat) (m : Movie) : Bool :=
  match P.getMovieCast m.id with
  | Except.error _ => false
  | Except.ok cast => cast.any (fun c => c.id == a2)

/-- The direct-connection shortcut: check the first 30 filmography entries in
provider order; the whole block is inside a try/catch, so a filmography
error here just means no direct connection. -/
def directCheck (P : Provider) (a1 a2 : Nat) : Option Movie :=
  match P.getActorFilmography a1 with
  | Except.error _ => none
  | Except.ok movies => (movies.take 30).find? (directHit P a2)

/-- Model of `PathfinderService.findPath` for the bidirectional pathfinder: path-cache
check, same-actor trivial case, endpoint detail fetches, direct-connection
shortcut, then the three escalation phases (30/20/4/250, 100/100/6/1000,
500/500/8/2000); every successful result is stored in the path cache before
being returned, and exhaustion of all three phases raises the not-found
error. -/
def findPath (P : Provider) (s : PathCache) (a1 a2 : Nat) :
    Except FindError PathResult × PathCache :=
  match getPathResult s a1 a2 with
  | some cached => (Except.ok cached, s)
  | none =>
    if a1 = a2 then
      match P.getActorDetails a1 with
      | Except.error _ => (Except.error FindError.upstream, s)
      | Except.ok actor =>
        let result : PathResult := ⟨[PathStep.actor actor], 0⟩
        (Except.ok result, setPathResult s a1 a2 result)
    else
      match P.getActorDetails a1 with
      | Except.error _ => (Except.error FindError.upstream, s)
      | Except.ok startA =>
        match P.getActorDetails a2 with
        | Except.error _ => (Except.error FindError.upstream, s)
        | Except.ok endA =>
          match directCheck P a1 a2 with
          | some m =>
            let result : PathResult :=
              ⟨[PathStep.actor startA, PathStep.movie m, PathStep.actor endA], 1⟩
            (Except.ok result, setPathResult s a1 a2 result)
          | none =>
            match tryBidirectionalBFS P a1 a2 startA endA 30 20 4 250 with
            | Except.error _ => (Except.error FindError.upstream, s)
            | Except.ok (some r, _) => (Except.ok r, setPathResult s a1 a2 r)
            | Except.ok (none, _) =>
              match tryBidirectionalBFS P a1 a2 startA endA 100 100 6 1000 with
              | Except.error _ => (Except.error FindError.upstream, s)
              | Except.ok (some r, _) => (Except.ok r, setPathResult s a1 a2 r)
              | Except.ok (none, _) =>
                match tryBidirectionalBFS P a1 a2 startA endA 500 500 8 2000 with
                | Except.error _ => (Except.error FindError.upstream, s)
                | Except.ok (some r, _) => (Except.ok r, setPathResult s a1 a2 r)
                | Except.ok (none, _) => (Except.error FindError.notFound, s)

/-! ## Alternation predicates and path invariants -/

/-- Predicate `chain p` holds exactly when `p` is `actor`, or
`actor, movie, actor, …, movie, actor`: it begins and ends with an actor
step and strictly alternates. -/
def chain : List PathStep → Bool
  | [PathStep.actor _] => true
  | PathStep.actor _ :: PathStep.movie _ :: rest => chain rest
  | _ => false

/-- Predicate `tchain p` holds when `p` is a possibly empty `movie, actor` repetition:
the shape of a valid continuation after an actor step. -/
def tchain : List PathStep → Bool
  | [] => true
  | PathStep.movie _ :: PathStep.actor _ :: rest => tchain rest
  | _ => false

/-- Predicate `chain` seen only through the actor/movie skeleton of a path. -/
def chainShape : List Bool → Bool
  | [true] => true
  | true :: false :: rest => chainShape rest
  | _ => false

/-- The partial paths the search stores for reached actors: built from the
origin actor record by repeatedly appending a movie step and an actor step
whose id was unvisited at insertion time.  `GoodPath origin p i ids` says
`p` is such a path ending at the actor with id `i`, with `ids` the list of
actor ids along it in order. -/
inductive GoodPath (origin : Actor) : List PathStep → Nat → List Nat → Prop
  | base (m : Movie) (a : Actor) (h : a.id ≠ origin.id) :
      GoodPath origin [PathStep.actor origin, PathStep.movie m, PathStep.actor a]
        a.id [origin.id, a.id]
  | extend (p : List PathStep) (i : Nat) (ids : List Nat) (m : Movie) (a : Actor)
      (hp : GoodPath origin p i ids) (ha : a.id ∉ ids) :
      GoodPath origin (p ++ [PathStep.movie m, PathStep.actor a]) a.id (ids ++ [a.id])

/-- Invariant for one entry of a frontier queue or visited map. -/
def ItemOK (origin : Actor) (ks : List Nat) (it : QueueItem) : Prop :=
  (it.path = [] ∧ it.actorId = origin.id) ∨
  ∃ ids, GoodPath origin it.path it.actorId ids ∧ ids ⊆ ks

/-- Invariant for one side's visited map. -/
structure VisInv (origin : Actor) (vis : VList) : Prop where
  itemKey : ∀ kv ∈ vis, (kv : Nat × QueueItem).2.actorId = kv.1
  itemOK : ∀ kv ∈ vis, (kv : Nat × QueueItem).2 |> ItemOK origin (keys vis)
  originKey : origin.id ∈ keys vis

/-- Invariant for one side's frontier queue. -/
def QueueOK (origin : Actor) (ks : List Nat) (q : List QueueItem) : Prop :=
  ∀ it ∈ q, ItemOK origin ks it

/-- The provider returns actor records carrying the requested id, as the
TMDB `/person/:id` endpoint does. -/
def Coherent (P : Provider) : Prop :=
  ∀ i a, P.getActorDetails i = Except.ok a → a.id = i

/-- Every result already in the path cache alternates. -/
def CacheChainOK (s : PathCache) : Prop :=
  ∀ kv ∈ s, chain ((kv : (Nat × Nat) × PathResult).2.path) = true

/-- Every result already in the path cache satisfies the degrees equation. -/
def CacheDegOK (s : PathCache) : Prop :=
  ∀ kv ∈ s, ((kv : (Nat × Nat) × PathResult).2).degrees =
    (countActors kv.2.path : Int) - 1

/-- Invariant for the whole bidirectional state. -/
structure BfsOK (startA endA : Actor) (st : BfsState) : Prop where
  visFOK : VisInv startA st.visF
  qFOK : QueueOK startA (keys st.visF) st.qF
  visBOK : VisInv endA st.visB
  qBOK : QueueOK endA (keys st.visB) st.qB

/-- Iteration and pop counters of a completed phase attempt. -/
def bfsStats (r : Except Unit (Option PathResult × BfsState)) : Option (Nat × Nat) :=
  match r with
  | Except.ok (_, st) => some (st.iterations, st.pops)
  | Except.error _ => none

/-! ## Concrete fixtures used by witnesses and counterexamples -/

/-- Actors 1 and 2 both appear in movie 10 of actor 1's filmography. -/
def provDirectPair : Provider :=
  { getActorDetails := fun i => Except.ok ⟨i, "N", none⟩,
    getActorFilmography := fun i =>
      if i = 1 then Except.ok [⟨10, "M", none, none⟩] else Except.ok [],
    getMovieCast := fun m =>
      if m = 10 then Except.ok [⟨1, "N", none, none⟩, ⟨2, "N", none, none⟩]
      else Except.ok [] }

/-- Actors 1 and 2 are joined only through actor 3 (movies 100 and 200), so
the search must assemble the answer at a bidirectional meeting point. -/
def provTwoHop : Provider :=
  { getActorDetails := fun i => Except.ok ⟨i, "N", none⟩,
    getActorFilmography := fun i =>
      if i = 1 then Except.ok [⟨100, "M1", none, none⟩]
      else if i = 2 then Except.ok [⟨200, "M2", none, none⟩]
      else if i = 3 then Except.ok [⟨100, "M1", none, none⟩, ⟨200, "M2", none, none⟩]
      else Except.ok [],
    getMovieCast := fun m =>
      if m = 100 then Except.ok [⟨1, "N", none, none⟩, ⟨3, "N", none, none⟩]
      else if m = 200 then Except.ok [⟨2, "N", none, none⟩, ⟨3, "N", none, none⟩]
      else Except.ok [] }

/-- During BFS the search reaches actor 3, whose filmography fetch fails;
everything else answers normally. -/
def provFilmographyError : Provider :=
  { getActorDetails := fun i => Except.ok ⟨i, "N", none⟩,
    getActorFilmography := fun i =>
      if i = 1 then Except.ok [⟨10, "M", none, none⟩]
      else if i = 2 then Except.ok []
      else Except.error (),
    getMovieCast := fun m =>
      if m = 10 then Except.ok [⟨3, "C", none, none⟩] else Except.error () }

/-- Identical graph, but actor 3's filmography is empty instead of failing:
the behavior the spec promises for a skipped item. -/
def provFilmographyEmpty : Provider :=
  { getActorDetails := fun i => Except.ok ⟨i, "N", none⟩,
    getActorFilmography := fun i =>
      if i = 1 then Except.ok [⟨10, "M", none, none⟩] else Except.ok [],
    getMovieCast := fun m =>
      if m = 10 then Except.ok [⟨3, "C", none, none⟩] else Except.error () }

/-- Both endpoint actors have empty filmographies, so each phase pops both
seeds and stops. -/
def provEmptyFilm : Provider :=
  { getActorDetails := fun i => Except.ok ⟨i, "N", none⟩,
    getActorFilmography := fun _ => Except.ok [],
    getMovieCast := fun _ => Except.ok [] }

/-- One movie (7) has a failing cast fetch; movie 10 still connects 1 to 2. -/
def provCastError : Provider :=
  { getActorDetails := fun i => Except.ok ⟨i, "N", none⟩,
    getActorFilmography := fun i =>
      if i = 1 then Except.ok [⟨7, "B", none, none⟩, ⟨10, "M", none, none⟩]
      else Except.ok [],
    getMovieCast := fun m =>
      if m = 10 then Except.ok [⟨1, "N", none, none⟩, ⟨2, "N", none, none⟩]
      else Except.error () }

/-- The 5-step result the search assembles for `provTwoHop`, starting from
the backward side of the meeting point. -/
def twoHopPath : List PathStep :=
  [PathStep.actor ⟨2, "N", none⟩, PathStep.movie ⟨200, "M2", none, none⟩,
   PathStep.actor ⟨3, "N", none⟩, PathStep.movie ⟨100, "M1", none, none⟩,
   PathStep.actor ⟨1, "N", none⟩]

/-- The state a phase for actors 1 and 2 starts from. -/
def seedState : BfsState :=
  { qF := [⟨1, []⟩], qB := [⟨2, []⟩],
    visF := [(1, ⟨1, []⟩)], visB := [(2, ⟨2, []⟩)],
    iterations := 0, pops := 0 }

/-- The state after one pass of `provEmptyFilm`: both seeds popped, one
budget unit consumed. -/
def seedAfter : BfsState :=
  { qF := [], qB := [],
    visF := [(1, ⟨1, []⟩)], visB := [(2, ⟨2, []⟩)],
    iterations := 1, pops := 2 }

/-- The cache key used by the cache witnesses. -/
def kkey : String := "k"

/-- A cache with one entry under key "k": value 42 expiring at time 100. -/
def cacheFixture : CacheState Nat :=
  { entries := [("k", ⟨42, 100⟩)], hits := 0, misses := 0 }

/-- An empty cache used for the wrap witness. -/
def emptyCache : CacheState Nat :=
  { entries := [], hits := 0, misses := 0 }

/-- An upstream that answers 429 to every attempt. -/
def alwaysRateLimited : Nat → HttpOutcome Nat :=
  fun _ => HttpOutcome.rateLimited

/-- An upstream that answers 429 for the first three attempts and then 200. -/
def threeThenOk : Nat → HttpOutcome Nat :=
  fun n => if n < 3 then HttpOutcome.rateLimited else HttpOutcome.ok 7

/-! # Association-list lemmas -/

theorem alookup_aremove_self {α β : Type} [DecidableEq α] :
    ∀ (l : List (α × β)) (k : α), alookup (aremove l k) k = none
  | [], _ => rfl
  | (a, b) :: rest, k => by
    by_cases h : a = k
    · simpa [aremove, h] using alookup_aremove_self rest k
    · simpa [aremove, h, alookup] using alookup_aremove_self rest k

theorem alookup_ainsert_self {α β : Type} [DecidableEq α]
    (l : List (α × β)) (k : α) (v : β) : alookup (ainsert l k v) k = some v := by
  simp [ainsert, alookup]

theorem alookup_some_mem {α β : Type} [DecidableEq α] :
    ∀ (l : List (α × β)) (k : α) (v : β), alookup l k = some v → (k, v) ∈ l
  | [], _, _, h => by simp [alookup] at h
  | (a, b) :: rest, k, v, h => by
    by_cases hk : a = k
    · subst hk
      simp [alookup] at h
      subst h
      exact List.mem_cons_self _ _
    · simp [alookup, hk] at h
      exact List.mem_cons_of_mem _ (alookup_some_mem rest k v h)

theorem alookup_eq_none_iff {α β : Type} [DecidableEq α] :
    ∀ (l : List (α × β)) (k : α), alookup l k = none ↔ k ∉ keys l
  | [], k => by simp [alookup, keys]
  | (a, b) :: rest, k => by
    by_cases hk : a = k
    · subst hk
      simp [alookup, keys]
    · simp [alookup, hk, keys, Ne.symm hk]
      simpa [keys] using alookup_eq_none_iff rest k

/-! # Claim C1: symmetric path-cache pair key -/

/-- C1.  The pair key is symmetric in its two actor-id arguments, so the
path-cache reads issued by `findPath(A,B)` and `findPath(B,A)` address the
same entry, as do their writes.  The key is modelled from the spec because
the cache module holding it is not among the sources. -/
theorem pathKey_symmetric :
    ∀ a b : Nat, pathKey a b = pathKey b a ∧
      (∀ s : PathCache, getPathResult s a b = getPathResult s b a) ∧
      (∀ (s : PathCache) (r : PathResult),
        setPathResult s a b r = setPathResult s b a r) := by
  intro a b
  have hk : pathKey a b = pathKey b a := by
    unfold pathKey
    rcases Nat.le_total a b with h | h
    · by_cases hba : b ≤ a
      · have : a = b := Nat.le_antisymm h hba
        simp [this]
      · simp [h, hba]
    · by_cases hab : a ≤ b
      · have : a = b := Nat.le_antisymm hab h
        simp [this]
      · simp [h, hab]
  exact ⟨hk,
    fun s => by rw [getPathResult, getPathResult, hk],
    fun s r => by rw [setPathResult, setPathResult, hk]⟩

/-! # Claim C8: cache get with TTL -/

/-- C8.  When an entry for the key exists and its expiry time has not
passed, `get` returns the stored value; once the expiry time has passed it
returns the absent result and physically removes the entry from the backing
store. -/
theorem cacheGet_spec {T : Type} (st : CacheState T) (now : Nat) (key : String)
    (e : CacheEntry T) (hl : alookup st.entries key = some e) :
    (now ≤ e.expiresAt → (cacheGet st now key).1 = some e.data) ∧
    (e.expiresAt < now →
      (cacheGet st now key).1 = none ∧
      alookup ((cacheGet st now key).2).entries key = none) := by
  constructor
  · intro hle
    have : ¬ now > e.expiresAt := by omega
    simp [cacheGet, hl, this]
  · intro hlt
    simp [cacheGet, hl, hlt, alookup_aremove_self]

theorem cacheGet_spec_witness :
    ((cacheGet cacheFixture 50 kkey).1 = some 42) ∧
    ((cacheGet cacheFixture 200 kkey).1 = none ∧
      alookup ((cacheGet cacheFixture 200 kkey).2).entries kkey = none) :=
  ⟨(cacheGet_spec cacheFixture 50 kkey ⟨42, 100⟩ rfl).1 (by decide),
   (cacheGet_spec cacheFixture 200 kkey ⟨42, 100⟩ rfl).2 (by decide)⟩

/-! # Claim C9: wrap / getOrCompute -/

theorem cacheGet_miss_lookup_none {T : Type} (st : CacheState T) (now : Nat)
    (key : String) (hmiss : (cacheGet st now key).1 = none) :
    alookup ((cacheGet st now key).2).entries key = none := by
  unfold cacheGet at hmiss ⊢
  cases hl : alookup st.entries key with
  | none => simpa using hl
  | some e =>
    rw [hl] at hmiss
    by_cases hexp : now > e.expiresAt
    · simp [hexp, alookup_aremove_self]
    · simp [hexp] at hmiss

/-- C9.  On a cache miss, `wrap` returns exactly the value the producer
returned and stores that same value under the key; when the producer fails,
its error propagates unchanged and nothing is stored for the key. -/
theorem cacheWrap_spec {T E : Type} (st : CacheState T) (now : Nat) (key : String)
    (ttlSeconds : Nat) (fetcher : Except E T)
    (hmiss : (cacheGet st now key).1 = none) :
    (∀ v, fetcher = Except.ok v →
      (cacheWrap st now key ttlSeconds fetcher).1 = Except.ok v ∧
      alookup ((cacheWrap st now key ttlSeconds fetcher).2).entries key =
        some ⟨v, now + ttlSeconds * 1000⟩) ∧
    (∀ err, fetcher = Except.error err →
      cacheWrap st now key ttlSeconds fetcher =
        (Except.error err, (cacheGet st now key).2) ∧
      alookup ((cacheWrap st now key ttlSeconds fetcher).2).entries key = none) := by
  have hlook := cacheGet_miss_lookup_none st now key hmiss
  unfold cacheWrap
  cases hget : cacheGet st now key with
  | mk fst snd =>
    rw [hget] at hmiss hlook
    subst hmiss
    constructor
    · intro v hv
      subst hv
      simp [cacheSet, alookup_ainsert_self]
    · intro err herr
      subst herr
      simpa using hlook

theorem cacheWrap_spec_witness :
    ((cacheWrap emptyCache 0 kkey 60 (Except.ok 5 : Except Unit Nat)).1 = Except.ok 5 ∧
      alookup ((cacheWrap emptyCache 0 kkey 60
        (Except.ok 5 : Except Unit Nat)).2).entries kkey =
        some ⟨5, 0 + 60 * 1000⟩) ∧
    ((cacheWrap emptyCache 0 kkey 60 (Except.error () : Except Unit Nat)) =
        (Except.error (), (cacheGet emptyCache 0 kkey).2) ∧
      alookup ((cacheWrap emptyCache 0 kkey 60
        (Except.error () : Except Unit Nat)).2).entries kkey = none) :=
  ⟨(cacheWrap_spec emptyCache 0 kkey 60 (Except.ok 5) rfl).1 5 rfl,
   (cacheWrap_spec emptyCache 0 kkey 60 (Except.error ()) rfl).2 () rfl⟩

/-! # Claim C10: unbounded 429 retry loop -/

theorem request_skip_rateLimited {T : Type} (responses : Nat → HttpOutcome T) :
    ∀ (n attempt delayMs fuel : Nat),
      (∀ i, i < n → responses (attempt + i) = HttpOutcome.rateLimited) →
      request responses attempt delayMs (n + fuel) =
        request responses (attempt + n) (delayMs + 1000 * n) fuel := by
  intro n
  induction n with
  | zero => intro attempt delayMs fuel _; simp
  | succ k ih =>
    intro attempt delayMs fuel h
    have h0 : responses attempt = HttpOutcome.rateLimited := by
      simpa using h 0 (Nat.succ_pos k)
    have step : request responses attempt delayMs (k + 1 + fuel) =
        request responses (attempt + 1) (delayMs + 1000) (k + fuel) := by
      have : k + 1 + fuel = (k + fuel) + 1 := by omega
      rw [this]
      simp [request, h0]
    rw [step, ih (attempt + 1) (delayMs + 1000) fuel
      (fun i hi => by
        have := h (i + 1) (by omega)
        simpa [Nat.add_assoc, Nat.add_comm 1 i] using this)]
    congr 1 <;> omega

/-- C10.  The request helper retries a rate-limited call recursively with no
cap: an upstream that answers 429 to every attempt makes the helper run out
of any finite fuel without producing a result or an error, and when the
first `k` attempts are rate-limited the eventual result is delivered after
exactly `1000 * k` milliseconds of fixed one-second delays. -/
theorem request_rateLimited_spec {T : Type} :
    (∀ (responses : Nat → HttpOutcome T),
      (∀ n, responses n = HttpOutcome.rateLimited) →
      ∀ fuel attempt delayMs, request responses attempt delayMs fuel = none) ∧
    (∀ (responses : Nat → HttpOutcome T) (k : Nat) (v : T),
      (∀ i, i < k → responses i = HttpOutcome.rateLimited) →
      responses k = HttpOutcome.ok v →
      ∀ fuel, request responses 0 0 (k + (fuel + 1)) = some (Except.ok v, 1000 * k)) := by
  constructor
  · intro responses h fuel
    induction fuel with
    | zero => intro attempt delayMs; rfl
    | succ n ih =>
      intro attempt delayMs
      simpa [request, h attempt] using ih (attempt + 1) (delayMs + 1000)
  · intro responses k v hlt hk fuel
    have := request_skip_rateLimited responses k 0 0 (fuel + 1)
      (fun i hi => by simpa using hlt i hi)
    rw [this]
    simp [request, hk]

theorem request_rateLimited_witness :
    request alwaysRateLimited 0 0 5 = none ∧
    request threeThenOk 0 0 (3 + (0 + 1)) = some (Except.ok 7, 1000 * 3) :=
  ⟨(@request_rateLimited_spec Nat).1 alwaysRateLimited (fun _ => rfl) 5 0 0,
   (@request_rateLimited_spec Nat).2 threeThenOk 3 7 (by decide) rfl 0⟩

/-! # Claim C2: trivial same-actor case -/

/-- C2.  On a path-cache miss, `findPath(X, X)` fetches the actor once,
returns a single-step path holding only that actor with `degrees = 0`, and
the returned cache state already stores this result under the pair key. -/
theorem findPath_same_actor (P : Provider) (s : PathCache) (X : Nat) (a : Actor)
    (hmiss : getPathResult s X X = none)
    (hdet : P.getActorDetails X = Except.ok a) :
    findPath P s X X =
      (Except.ok ⟨[PathStep.actor a], 0⟩,
        setPathResult s X X ⟨[PathStep.actor a], 0⟩) ∧
    getPathResult (findPath P s X X).2 X X = some ⟨[PathStep.actor a], 0⟩ := by
  have h1 : findPath P s X X =
      (Except.ok ⟨[PathStep.actor a], 0⟩,
        setPathResult s X X ⟨[PathStep.actor a], 0⟩) := by
    simp [findPath, hmiss, hdet]
  refine ⟨h1, ?_⟩
  rw [h1]
  simp [getPathResult, setPathResult, alookup_ainsert_self]

theorem findPath_same_actor_witness :
    findPath provDirectPair [] 5 5 =
      (Except.ok ⟨[PathStep.actor ⟨5, "N", none⟩], 0⟩,
        [((5, 5), ⟨[PathStep.actor ⟨5, "N", none⟩], 0⟩)]) ∧
    getPathResult (findPath provDirectPair [] 5 5).2 5 5 =
      some ⟨[PathStep.actor ⟨5, "N", none⟩], 0⟩ :=
  findPath_same_actor provDirectPair [] 5 ⟨5, "N", none⟩ rfl rfl

/-! # Claim C3: direct co-star shortcut -/

/-- C3.  With distinct endpoints, a path-cache miss, successfully fetched
endpoint details and filmography, if the first 30 filmography entries (in
provider order) contain movies whose cast includes actor 2, then `findPath`
returns exactly the 3-step path through the first such movie with
`degrees = 1` (and stores it in the path cache). -/
theorem findPath_direct (P : Provider) (s : PathCache) (a1 a2 : Nat)
    (A1 A2 : Actor) (films : List Movie) (m : Movie)
    (hmiss : getPathResult s a1 a2 = none) (hne : a1 ≠ a2)
    (h1 : P.getActorDetails a1 = Except.ok A1)
    (h2 : P.getActorDetails a2 = Except.ok A2)
    (hf : P.getActorFilmography a1 = Except.ok films)
    (hm : (films.take 30).find? (directHit P a2) = some m) :
    findPath P s a1 a2 =
      (Except.ok ⟨[PathStep.actor A1, PathStep.movie m, PathStep.actor A2], 1⟩,
        setPathResult s a1 a2
          ⟨[PathStep.actor A1, PathStep.movie m, PathStep.actor A2], 1⟩) := by
  simp [findPath, hmiss, hne, h1, h2, directCheck, hf, hm]

theorem findPath_direct_witness :
    findPath provDirectPair [] 1 2 =
      (Except.ok ⟨[PathStep.actor ⟨1, "N", none⟩, PathStep.movie ⟨10, "M", none, none⟩,
          PathStep.actor ⟨2, "N", none⟩], 1⟩,
        [((1, 2), ⟨[PathStep.actor ⟨1, "N", none⟩, PathStep.movie ⟨10, "M", none, none⟩,
          PathStep.actor ⟨2, "N", none⟩], 1⟩)]) :=
  findPath_direct provDirectPair [] 1 2 ⟨1, "N", none⟩ ⟨2, "N", none⟩
    [⟨10, "M", none, none⟩] ⟨10, "M", none, none⟩ rfl (by decide) rfl rfl rfl rfl

/-! # Alternation lemmas -/

theorem tchain_movie_cons (M : Movie) :
    ∀ l, chain l = true → tchain (PathStep.movie M :: l) = true
  | [], h => by simp [chain] at h
  | [PathStep.actor _], _ => rfl
  | [PathStep.movie _], h => by simp [chain] at h
  | PathStep.actor _ :: PathStep.movie m2 :: rest, h => tchain_movie_cons m2 rest h
  | PathStep.actor _ :: PathStep.actor _ :: _, h => by simp [chain] at h
  | PathStep.movie _ :: _ :: _, h => by simp [chain] at h

theorem chain_cons_actor_tchain :
    ∀ (q : List PathStep) (a : Actor), tchain q = true → chain (PathStep.actor a :: q) = true
  | [], _, _ => rfl
  | PathStep.movie _ :: PathStep.actor b :: rest, _, h => chain_cons_actor_tchain rest b h
  | PathStep.movie _ :: PathStep.movie _ :: _, _, h => by simp [tchain] at h
  | [PathStep.movie _], _, h => by simp [tchain] at h
  | PathStep.actor _ :: _, _, h => by simp [tchain] at h

theorem chain_append_tchain :
    ∀ (p q : List PathStep), chain p = true → tchain q = true → chain (p ++ q) = true
  | [PathStep.actor a], q, _, hq => chain_cons_actor_tchain q a hq
  | PathStep.actor _ :: PathStep.movie _ :: rest, q, hp, hq =>
      chain_append_tchain rest q hp hq
  | [], _, hp, _ => by simp [chain] at hp
  | [PathStep.movie _], _, hp, _ => by simp [chain] at hp
  | PathStep.actor _ :: PathStep.actor _ :: _, _, hp, _ => by simp [chain] at hp
  | PathStep.movie _ :: _ :: _, _, hp, _ => by simp [chain] at hp

theorem chain_append_movie_actor (p : List PathStep) (m : Movie) (a : Actor)
    (h : chain p = true) : chain (p ++ [PathStep.movie m, PathStep.actor a]) = true :=
  chain_append_tchain p [PathStep.movie m, PathStep.actor a] h rfl

theorem chain_eq_chainShape : ∀ p : List PathStep, chain p = chainShape (p.map isActorStep)
  | [] => rfl
  | [PathStep.actor _] => rfl
  | [PathStep.movie _] => rfl
  | PathStep.actor _ :: PathStep.movie _ :: rest => chain_eq_chainShape rest
  | PathStep.actor _ :: PathStep.actor _ :: _ => rfl
  | PathStep.movie _ :: _ :: _ => rfl

theorem chain_congr_shape (p q : List PathStep)
    (h : p.map isActorStep = q.map isActorStep) : chain p = chain q := by
  rw [chain_eq_chainShape, chain_eq_chainShape, h]

theorem length_filter_congr_shape :
    ∀ (p q : List PathStep), p.map isActorStep = q.map isActorStep →
      (p.filter isActorStep).length = (q.filter isActorStep).length
  | [], [], _ => rfl
  | [], _ :: _, h => by simp at h
  | _ :: _, [], h => by simp at h
  | a :: p, b :: q, h => by
    simp only [List.map_cons, List.cons.injEq] at h
    obtain ⟨h1, h2⟩ := h
    simp only [List.filter_cons]
    rw [h1]
    cases hb : isActorStep b <;>
      simp [length_filter_congr_shape p q h2]

theorem countActors_congr_shape (p q : List PathStep)
    (h : p.map isActorStep = q.map isActorStep) : countActors p = countActors q :=
  length_filter_congr_shape p q h

/-! # GoodPath lemmas -/

theorem gp_chain {origin : Actor} {p : List PathStep} {i : Nat} {ids : List Nat}
    (h : GoodPath origin p i ids) : chain p = true := by
  induction h with
  | base m a hne => rfl
  | extend p i ids m a hp ha ih => exact chain_append_movie_actor p m a ih

theorem gp_ne_nil {origin : Actor} {p : List PathStep} {i : Nat} {ids : List Nat}
    (h : GoodPath origin p i ids) : p ≠ [] := by
  cases h with
  | base m a hne => simp
  | extend p i ids m a hp ha => simp

theorem gp_origin_mem {origin : Actor} {p : List PathStep} {i : Nat} {ids : List Nat}
    (h : GoodPath origin p i ids) : origin.id ∈ ids := by
  induction h with
  | base m a hne => exact List.mem_cons_self _ _
  | extend p i ids m a hp ha ih => exact List.mem_append_left _ ih

theorem gp_last_mem {origin : Actor} {p : List PathStep} {i : Nat} {ids : List Nat}
    (h : GoodPath origin p i ids) : i ∈ ids := by
  cases h with
  | base m a hne => simp
  | extend p i ids m a hp ha => simp

theorem gp_reduce_chain (origin : Actor) (c : Nat) {p : List PathStep} {i : Nat}
    {ids : List Nat} (h : GoodPath origin p i ids) :
    c ∉ ids →
    chain (p.reverse.filterMap (reduceStep c origin) ++ [PathStep.actor origin]) = true := by
  induction h with
  | base m a hne =>
    intro hc
    have ha1 : ¬ a.id = c := fun he => hc (by simp [he])
    have hne2 : ¬ a.id = origin.id := hne
    simp [reduceStep, ha1, hne2, chain]
  | extend p i ids m a hp ha ih =>
    intro hc
    have hanotc : ¬ a.id = c := fun he => hc (by simp [he])
    have hao : ¬ a.id = origin.id := fun he => ha (he ▸ gp_origin_mem hp)
    have hcids : c ∉ ids := fun hm2 => hc (List.mem_append_left _ hm2)
    have hrev : (p ++ [PathStep.movie m, PathStep.actor a]).reverse =
        PathStep.actor a :: PathStep.movie m :: p.reverse := by simp
    rw [hrev]
    simpa [reduceStep, hanotc, hao, chain] using ih hcids

theorem gp_reduce_tchain (origin : Actor) {p : List PathStep} {i : Nat}
    {ids : List Nat} (h : GoodPath origin p i ids) :
    tchain (p.reverse.filterMap (reduceStep i origin) ++ [PathStep.actor origin]) = true := by
  cases h with
  | base m a hne =>
    simp [reduceStep, tchain]
  | extend p i ids m a hp ha =>
    have hrev : (p ++ [PathStep.movie m, PathStep.actor a]).reverse =
        PathStep.actor a :: PathStep.movie m :: p.reverse := by simp
    rw [hrev]
    simpa [reduceStep, tchain] using
      tchain_movie_cons m _ (gp_reduce_chain origin a.id hp ha)

/-! # buildFinalPath preserves the actor/movie skeleton -/

theorem buildFinalPath_shape (P : Provider) :
    ∀ (p p2 : List PathStep), buildFinalPath P p = Except.ok p2 →
      p2.map isActorStep = p.map isActorStep
  | [], p2, h => by
    simp [buildFinalPath] at h
    subst h
    rfl
  | PathStep.actor a :: rest, p2, h => by
    unfold buildFinalPath at h
    by_cases hc : a.id ≠ 0 ∧ a.name = ""
    · rw [if_pos hc] at h
      cases hd : P.getActorDetails a.id with
      | error e => rw [hd] at h; exact absurd h (by simp)
      | ok a2 =>
        rw [hd] at h
        cases hr : buildFinalPath P rest with
        | error e => rw [hr] at h; exact absurd h (by simp)
        | ok r =>
          rw [hr] at h
          simp only [Except.ok.injEq] at h
          subst h
          simp [isActorStep, buildFinalPath_shape P rest r hr]
    · rw [if_neg hc] at h
      cases hr : buildFinalPath P rest with
      | error e => rw [hr] at h; exact absurd h (by simp)
      | ok r =>
        rw [hr] at h
        simp only [Except.ok.injEq] at h
        subst h
        simp [isActorStep, buildFinalPath_shape P rest r hr]
  | PathStep.movie m :: rest, p2, h => by
    unfold buildFinalPath at h
    cases hr : buildFinalPath P rest with
    | error e => rw [hr] at h; exact absurd h (by simp)
    | ok r =>
      rw [hr] at h
      simp only [Except.ok.injEq] at h
      subst h
      simp [isActorStep, buildFinalPath_shape P rest r hr]

theorem buildFinalPath_chain (P : Provider) (p p2 : List PathStep)
    (h : buildFinalPath P p = Except.ok p2) : chain p2 = chain p :=
  chain_congr_shape p2 p (buildFinalPath_shape P p p2 h)

theorem buildFinalPath_count (P : Provider) (p p2 : List PathStep)
    (h : buildFinalPath P p = Except.ok p2) : countActors p2 = countActors p :=
  countActors_congr_shape p2 p (buildFinalPath_shape P p p2 h)

/-! # The degrees field of every found raw path is actor count minus one -/

theorem castLoop_found_deg (P : Provider) (isFwd : Bool) (startA endA : Actor)
    (current : QueueItem) (movie : Movie) (otherVis : VList) :
    ∀ (cs : List CastMember) (vis : VList) (q : List QueueItem)
      (pth : List PathStep) (d : Int) (vis2 : VList) (q2 : List QueueItem),
      castLoop P isFwd startA endA current movie otherVis cs vis q =
        (CastOut.found pth d, vis2, q2) →
      d = (countActors pth : Int) - 1 := by
  intro cs
  induction cs with
  | nil =>
    intro vis q pth d vis2 q2 h
    simp [castLoop] at h
  | cons c rest ih =>
    intro vis q pth d vis2 q2 h
    unfold castLoop at h
    by_cases h1 : c.id = current.actorId
    · rw [if_pos h1] at h
      exact ih vis q pth d vis2 q2 h
    · rw [if_neg h1] at h
      cases ho : alookup otherVis c.id with
      | some other =>
        rw [ho] at h
        cases hd : P.getActorDetails c.id with
        | error e => rw [hd] at h; simp at h
        | ok meetingActor =>
          rw [hd] at h
          simp only [Prod.mk.injEq, CastOut.found.injEq] at h
          obtain ⟨⟨hpth, hdeg⟩, _, _⟩ := h
          subst hpth
          exact hdeg.symm
      | none =>
        rw [ho] at h
        by_cases h2 : (alookup vis c.id).isSome
        · rw [if_pos h2] at h
          exact ih vis q pth d vis2 q2 h
        · rw [if_neg h2] at h
          cases hd : P.getActorDetails c.id with
          | error e => rw [hd] at h; simp at h
          | ok nextActor =>
            rw [hd] at h
            exact ih _ _ pth d vis2 q2 h

theorem processMovie_found_deg (P : Provider) (isFwd : Bool) (startA endA : Actor)
    (current : QueueItem) (maxCast : Nat) (otherVis : VList) (movie : Movie)
    (vis : VList) (q : List QueueItem) (pth : List PathStep) (d : Int)
    (vis2 : VList) (q2 : List QueueItem)
    (h : processMovie P isFwd startA endA current maxCast otherVis movie vis q =
      (CastOut.found pth d, vis2, q2)) :
    d = (countActors pth : Int) - 1 := by
  unfold processMovie at h
  cases hc : P.getMovieCast movie.id with
  | error e => rw [hc] at h; simp at h
  | ok cast =>
    rw [hc] at h
    exact castLoop_found_deg P isFwd startA endA current movie otherVis
      (cast.take maxCast) vis q pth d vis2 q2 h

theorem runBatch_found_deg (P : Provider) (isFwd : Bool) (startA endA : Actor)
    (current : QueueItem) (maxCast : Nat) (otherVis : VList) :
    ∀ (batch : List Movie) (vis : VList) (q : List QueueItem)
      (pth : List PathStep) (d : Int) (vis2 : VList) (q2 : List QueueItem),
      runBatch P isFwd startA endA current maxCast otherVis batch vis q =
        (some (pth, d), vis2, q2) →
      d = (countActors pth : Int) - 1 := by
  intro batch
  induction batch with
  | nil =>
    intro vis q pth d vis2 q2 h
    simp [runBatch] at h
  | cons m rest ih =>
    intro vis q pth d vis2 q2 h
    unfold runBatch at h
    rcases hpm : processMovie P isFwd startA endA current maxCast otherVis m vis q with
      ⟨out, visA, qA⟩
    rw [hpm] at h
    dsimp only at h
    rcases hrb : runBatch P isFwd startA endA current maxCast otherVis rest visA qA with
      ⟨restOut, visB, qB⟩
    rw [hrb] at h
    dsimp only at h
    cases out with
    | found p0 d0 =>
      simp only [Prod.mk.injEq, Option.some.injEq] at h
      obtain ⟨⟨hp0, hd0⟩, _, _⟩ := h
      subst hp0
      subst hd0
      exact processMovie_found_deg P isFwd startA endA current maxCast otherVis m
        vis q p0 d0 visA qA hpm
    | nofind =>
      simp only [Prod.mk.injEq] at h
      obtain ⟨hro, _, _⟩ := h
      subst hro
      exact ih visA qA pth d visB qB hrb

theorem movieBatches_found_deg (P : Provider) (isFwd : Bool) (startA endA : Actor)
    (current : QueueItem) (maxCast : Nat) (otherVis : VList) :
    ∀ (fuel : Nat) (ms : List Movie) (vis : VList) (q : List QueueItem)
      (pth : List PathStep) (d : Int) (vis2 : VList) (q2 : List QueueItem),
      movieBatches P isFwd startA endA current maxCast otherVis fuel ms vis q =
        (some (pth, d), vis2, q2) →
      d = (countActors pth : Int) - 1 := by
  intro fuel
  induction fuel with
  | zero =>
    intro ms vis q pth d vis2 q2 h
    cases ms <;> simp [movieBatches] at h
  | succ n ih =>
    intro ms vis q pth d vis2 q2 h
    cases ms with
    | nil => simp [movieBatches] at h
    | cons m rest =>
      unfold movieBatches at h
      rcases hrb : runBatch P isFwd startA endA current maxCast otherVis
          ((m :: rest).take 5) vis q with ⟨out, visA, qA⟩
      rw [hrb] at h
      dsimp only at h
      cases out with
      | some f =>
        obtain ⟨p0, d0⟩ := f
        simp only [Prod.mk.injEq, Option.some.injEq] at h
        obtain ⟨⟨hp0, hd0⟩, _, _⟩ := h
        subst hp0
        subst hd0
        exact runBatch_found_deg P isFwd startA endA current maxCast otherVis
          ((m :: rest).take 5) vis q p0 d0 visA qA hrb
      | none =>
        exact ih ((m :: rest).drop 5) visA qA pth d vis2 q2 h

theorem expandDirection_some_deg (P : Provider) (mm mc md : Nat)
    (startA endA : Actor) (isFwd : Bool) (q : List QueueItem) (vis otherVis : VList)
    (r : PathResult) (vis2 : VList) (q2 : List QueueItem)
    (h : expandDirection P mm mc md startA endA isFwd q vis otherVis =
      Except.ok (some r, vis2, q2)) :
    r.degrees = (countActors r.path : Int) - 1 := by
  unfold expandDirection at h
  cases q with
  | nil => simp at h
  | cons current qrest =>
    dsimp only at h
    by_cases hdep : countActors current.path ≥ md
    · rw [if_pos hdep] at h
      simp at h
    · rw [if_neg hdep] at h
      cases hf : P.getActorFilmography current.actorId with
      | error e => rw [hf] at h; simp at h
      | ok actorMovies =>
        rw [hf] at h
        simp only [] at h
        rcases hmb : movieBatches P isFwd startA endA current mc otherVis
            (actorMovies.take mm).length (actorMovies.take mm) vis qrest with
          ⟨out, visA, qA⟩
        rw [hmb] at h
        cases out with
        | none => simp at h
        | some f =>
          obtain ⟨p0, d0⟩ := f
          simp only [] at h
          cases hbf : buildFinalPath P p0 with
          | error e => rw [hbf] at h; simp at h
          | ok fp =>
            rw [hbf] at h
            simp only [Except.ok.injEq, Prod.mk.injEq, Option.some.injEq] at h
            obtain ⟨hr, _, _⟩ := h
            have hdeg := movieBatches_found_deg P isFwd startA endA current mc otherVis
              (actorMovies.take mm).length (actorMovies.take mm) vis qrest p0 d0 visA qA hmb
            have hcnt := buildFinalPath_count P p0 fp hbf
            subst hr
            simp [hdeg, hcnt]

theorem bfsBackward_some_deg (P : Provider) (mm mc md : Nat) (startA endA : Actor)
    (st : BfsState) (r : PathResult) (st2 : BfsState)
    (h : bfsBackward P mm mc md startA endA st = Except.ok (some r, st2)) :
    r.degrees = (countActors r.path : Int) - 1 := by
  obtain ⟨qF, qB, visF, visB, its, pops⟩ := st
  unfold bfsBackward at h
  dsimp only at h
  cases qB with
  | nil => simp at h
  | cons it qrest =>
    cases hE : expandDirection P mm mc md startA endA false (it :: qrest) visB visF with
    | error e => rw [hE] at h; simp at h
    | ok res =>
      obtain ⟨ores, visB2, qB2⟩ := res
      rw [hE] at h
      dsimp only at h
      simp only [Except.ok.injEq, Prod.mk.injEq] at h
      obtain ⟨hres, _⟩ := h
      subst hres
      exact expandDirection_some_deg P mm mc md startA endA false (it :: qrest) visB visF
        _ visB2 qB2 hE

theorem bfsPass_some_deg (P : Provider) (mm mc md : Nat) (startA endA : Actor)
    (st : BfsState) (r : PathResult) (st2 : BfsState)
    (h : bfsPass P mm mc md startA endA st = Except.ok (some r, st2)) :
    r.degrees = (countActors r.path : Int) - 1 := by
  obtain ⟨qF, qB, visF, visB, its, pops⟩ := st
  unfold bfsPass at h
  dsimp only at h
  cases qF with
  | nil =>
    exact bfsBackward_some_deg P mm mc md startA endA _ r st2 h
  | cons it qrest =>
    cases hE : expandDirection P mm mc md startA endA true (it :: qrest) visF visB with
    | error e => rw [hE] at h; simp at h
    | ok res =>
      obtain ⟨ores, visF2, qF2⟩ := res
      rw [hE] at h
      dsimp only at h
      cases ores with
      | some r0 =>
        simp only [Except.ok.injEq, Prod.mk.injEq, Option.some.injEq] at h
        obtain ⟨hres, _⟩ := h
        subst hres
        exact expandDirection_some_deg P mm mc md startA endA true (it :: qrest) visF visB
          _ visF2 qF2 hE
      | none =>
        exact bfsBackward_some_deg P mm mc md startA endA _ r st2 h

theorem bfsLoop_some_deg (P : Provider) (mm mc md : Nat) (startA endA : Actor) :
    ∀ (rem : Nat) (st : BfsState) (r : PathResult) (st2 : BfsState),
      bfsLoop P mm mc md startA endA rem st = Except.ok (some r, st2) →
      r.degrees = (countActors r.path : Int) - 1 := by
  intro rem
  induction rem with
  | zero =>
    intro st r st2 h
    simp [bfsLoop] at h
  | succ n ih =>
    intro st r st2 h
    unfold bfsLoop at h
    by_cases hguard : st.qF.isEmpty ∧ st.qB.isEmpty
    · rw [if_pos hguard] at h; simp at h
    · rw [if_neg hguard] at h
      cases hp : bfsPass P mm mc md startA endA st with
      | error e => rw [hp] at h; simp at h
      | ok res =>
        obtain ⟨ores, stA⟩ := res
        rw [hp] at h
        cases ores with
        | some r0 =>
          simp only [Except.ok.injEq, Prod.mk.injEq, Option.some.injEq] at h
          obtain ⟨hres, _⟩ := h
          subst hres
          exact bfsPass_some_deg P mm mc md startA endA st _ stA hp
        | none => exact ih stA r st2 h

/-! # Case analysis of a successful findPath run -/

theorem findPath_ok_cases (P : Provider) (s : PathCache) (a1 a2 : Nat)
    (r : PathResult) (s2 : PathCache)
    (h : findPath P s a1 a2 = (Except.ok r, s2)) :
    getPathResult s a1 a2 = some r ∨
    (∃ a, P.getActorDetails a1 = Except.ok a ∧ r = ⟨[PathStep.actor a], 0⟩) ∨
    (∃ A1 A2 m, P.getActorDetails a1 = Except.ok A1 ∧
      P.getActorDetails a2 = Except.ok A2 ∧
      r = ⟨[PathStep.actor A1, PathStep.movie m, PathStep.actor A2], 1⟩) ∨
    (∃ startA endA mm mc md mi stx,
      P.getActorDetails a1 = Except.ok startA ∧
      P.getActorDetails a2 = Except.ok endA ∧
      tryBidirectionalBFS P a1 a2 startA endA mm mc md mi =
        Except.ok (some r, stx)) := by
  unfold findPath at h
  cases hc : getPathResult s a1 a2 with
  | some cached =>
    rw [hc] at h
    simp only [] at h
    simp only [Prod.mk.injEq, Except.ok.injEq] at h
    obtain ⟨hr, _⟩ := h
    subst hr
    exact Or.inl rfl
  | none =>
    rw [hc] at h
    simp only [] at h
    by_cases he : a1 = a2
    · rw [if_pos he] at h
      cases hd : P.getActorDetails a1 with
      | error e => rw [hd] at h; simp at h
      | ok actor =>
        rw [hd] at h
        simp only [] at h
        simp only [Prod.mk.injEq, Except.ok.injEq] at h
        obtain ⟨hr, _⟩ := h
        subst hr
        exact Or.inr (Or.inl ⟨actor, rfl, rfl⟩)
    · rw [if_neg he] at h
      cases hd1 : P.getActorDetails a1 with
      | error e => rw [hd1] at h; simp at h
      | ok startA =>
        rw [hd1] at h
        simp only [] at h
        cases hd2 : P.getActorDetails a2 with
        | error e => rw [hd2] at h; simp at h
        | ok endA =>
          rw [hd2] at h
          simp only [] at h
          cases hdc : directCheck P a1 a2 with
          | some m =>
            rw [hdc] at h
            simp only [] at h
            simp only [Prod.mk.injEq, Except.ok.injEq] at h
            obtain ⟨hr, _⟩ := h
            subst hr
            exact Or.inr (Or.inr (Or.inl ⟨startA, endA, m, rfl, rfl, rfl⟩))
          | none =>
            rw [hdc] at h
            simp only [] at h
            cases hb1 : tryBidirectionalBFS P a1 a2 startA endA 30 20 4 250 with
            | error e => rw [hb1] at h; simp at h
            | ok res1 =>
              obtain ⟨o1, st1⟩ := res1
              rw [hb1] at h
              cases o1 with
              | some r1 =>
                simp only [] at h
                simp only [Prod.mk.injEq, Except.ok.injEq] at h
                obtain ⟨hr, _⟩ := h
                subst hr
                exact Or.inr (Or.inr (Or.inr
                  ⟨startA, endA, 30, 20, 4, 250, st1, rfl, rfl, hb1⟩))
              | none =>
                simp only [] at h
                cases hb2 : tryBidirectionalBFS P a1 a2 startA endA 100 100 6 1000 with
                | error e => rw [hb2] at h; simp at h
                | ok res2 =>
                  obtain ⟨o2, st2x⟩ := res2
                  rw [hb2] at h
                  cases o2 with
                  | some r2 =>
                    simp only [] at h
                    simp only [Prod.mk.injEq, Except.ok.injEq] at h
                    obtain ⟨hr, _⟩ := h
                    subst hr
                    exact Or.inr (Or.inr (Or.inr
                      ⟨startA, endA, 100, 100, 6, 1000, st2x, rfl, rfl, hb2⟩))
                  | none =>
                    simp only [] at h
                    cases hb3 : tryBidirectionalBFS P a1 a2 startA endA 500 500 8 2000 with
                    | error e => rw [hb3] at h; simp at h
                    | ok res3 =>
                      obtain ⟨o3, st3⟩ := res3
                      rw [hb3] at h
                      cases o3 with
                      | some r3 =>
                        simp only [] at h
                        simp only [Prod.mk.injEq, Except.ok.injEq] at h
                        obtain ⟨hr, _⟩ := h
                        subst hr
                        exact Or.inr (Or.inr (Or.inr
                          ⟨startA, endA, 500, 500, 8, 2000, st3, rfl, rfl, hb3⟩))
                      | none =>
                        simp only [] at h
                        simp at h

/-! # Claim C5: degrees equals actor-step count minus one -/

/-- C5.  Provided every result already in the path cache satisfies it, the
`degrees` field of every `PathResult` returned by `findPath` equals the
number of actor steps in its path minus 1.  New results satisfy it by
construction: the trivial case is one actor with degrees 0, the direct
shortcut two actors with degrees 1, and a bidirectional meeting point
computes `degrees` as the combined path's actor count minus one, which
`buildFinalPath` preserves. -/
theorem findPath_degrees (P : Provider) (s : PathCache) (a1 a2 : Nat)
    (hs : CacheDegOK s) (r : PathResult) (s2 : PathCache)
    (h : findPath P s a1 a2 = (Except.ok r, s2)) :
    r.degrees = (countActors r.path : Int) - 1 := by
  rcases findPath_ok_cases P s a1 a2 r s2 h with
    hcache | ⟨a, _, hr⟩ | ⟨A1, A2, m, _, _, hr⟩ |
    ⟨sA, eA, mm, mc, md, mi, stx, _, _, hb⟩
  · exact hs _ (alookup_some_mem s (pathKey a1 a2) _ hcache)
  · subst hr
    simp [countActors, isActorStep, List.filter]
  · subst hr
    simp [countActors, isActorStep, List.filter]
  · unfold tryBidirectionalBFS at hb
    exact bfsLoop_some_deg P mm mc md sA eA mi _ r _ hb

theorem findPath_degrees_witness :
    (⟨twoHopPath, 2⟩ : PathResult).degrees =
      (countActors (⟨twoHopPath, 2⟩ : PathResult).path : Int) - 1 :=
  findPath_degrees provTwoHop [] 1 2
    (fun kv hkv => absurd hkv (List.not_mem_nil kv)) ⟨twoHopPath, 2⟩
    [((1, 2), ⟨twoHopPath, 2⟩)] rfl

/-! # Claim C7: iteration budget accounting -/

/-- C7 counterexample.  With an iteration budget of 1, one phase of the
search still pops two frontier items — one from each side — while the
iteration counter only reaches 1: a frontier pop does not cost one budget
unit each, contradicting the claim (two pops would have to consume two
units of a budget that only has one). -/
theorem bfsPops_two_per_iteration :
    bfsStats (tryBidirectionalBFS provEmptyFilm 1 2 ⟨1, "N", none⟩ ⟨2, "N", none⟩
      30 20 4 1) = some (1, 2) := by
  rfl

/-- C7 amended.  Each pass of the phase's while loop counts exactly one unit
against the iteration budget and pops one item from each non-empty frontier
(forward side first, so up to two pops per unit); the phase fails — reports
no result — when the budget is exhausted or both frontiers are empty, and a
failing run ends either with the budget fully consumed or with both
frontiers empty. -/
theorem bfsPass_budget_accounting (P : Provider) (mm mc md : Nat) (sA eA : Actor) :
    (∀ st st2, bfsPass P mm mc md sA eA st = Except.ok (none, st2) →
      st2.iterations = st.iterations + 1 ∧
      st2.pops = st.pops + (if st.qF.isEmpty then 0 else 1) +
        (if st.qB.isEmpty then 0 else 1)) ∧
    (∀ st, bfsLoop P mm mc md sA eA 0 st = Except.ok (none, st)) ∧
    (∀ rem st, st.qF = [] → st.qB = [] →
      bfsLoop P mm mc md sA eA rem st = Except.ok (none, st)) ∧
    (∀ rem st st2, bfsLoop P mm mc md sA eA rem st = Except.ok (none, st2) →
      st2.iterations = st.iterations + rem ∨ (st2.qF = [] ∧ st2.qB = [])) := by
  have hpass : ∀ st st2, bfsPass P mm mc md sA eA st = Except.ok (none, st2) →
      st2.iterations = st.iterations + 1 ∧
      st2.pops = st.pops + (if st.qF.isEmpty then 0 else 1) +
        (if st.qB.isEmpty then 0 else 1) := by
    intro st st2 h
    obtain ⟨qF, qB, visF, visB, its, pps⟩ := st
    unfold bfsPass at h
    dsimp only at h
    cases qF with
    | nil =>
      unfold bfsBackward at h
      dsimp only at h
      cases qB with
      | nil =>
        simp only [Except.ok.injEq, Prod.mk.injEq] at h
        obtain ⟨_, hst⟩ := h
        subst hst
        simp
      | cons b qbrest =>
        cases hE : expandDirection P mm mc md sA eA false (b :: qbrest) visB visF with
        | error e => rw [hE] at h; simp at h
        | ok res =>
          obtain ⟨ores, visB2, qB2⟩ := res
          rw [hE] at h
          dsimp only at h
          cases ores with
          | some r0 => simp at h
          | none =>
            simp only [Except.ok.injEq, Prod.mk.injEq] at h
            obtain ⟨_, hst⟩ := h
            subst hst
            simp
    | cons f qfrest =>
      cases hE : expandDirection P mm mc md sA eA true (f :: qfrest) visF visB with
      | error e => rw [hE] at h; simp at h
      | ok res =>
        obtain ⟨ores, visF2, qF2⟩ := res
        rw [hE] at h
        dsimp only at h
        cases ores with
        | some r0 => simp at h
        | none =>
          unfold bfsBackward at h
          dsimp only at h
          cases qB with
          | nil =>
            simp only [Except.ok.injEq, Prod.mk.injEq] at h
            obtain ⟨_, hst⟩ := h
            subst hst
            simp
          | cons b qbrest =>
            cases hE2 : expandDirection P mm mc md sA eA false (b :: qbrest) visB visF2 with
            | error e => rw [hE2] at h; simp at h
            | ok res2 =>
              obtain ⟨ores2, visB2, qB2⟩ := res2
              rw [hE2] at h
              dsimp only at h
              cases ores2 with
              | some r0 => simp at h
              | none =>
                simp only [Except.ok.injEq, Prod.mk.injEq] at h
                obtain ⟨_, hst⟩ := h
                subst hst
                simp
  refine ⟨hpass, fun st => rfl, ?_, ?_⟩
  · intro rem st hqF hqB
    cases rem with
    | zero => rfl
    | succ n =>
      unfold bfsLoop
      rw [if_pos]
      constructor <;> simp [hqF, hqB, List.isEmpty]
  · intro rem
    induction rem with
    | zero =>
      intro st st2 h
      simp only [bfsLoop, Except.ok.injEq, Prod.mk.injEq] at h
      obtain ⟨_, hst⟩ := h
      subst hst
      exact Or.inl rfl
    | succ n ih =>
      intro st st2 h
      unfold bfsLoop at h
      by_cases hguard : st.qF.isEmpty ∧ st.qB.isEmpty
      · rw [if_pos hguard] at h
        simp only [Except.ok.injEq, Prod.mk.injEq] at h
        obtain ⟨_, hst⟩ := h
        subst hst
        refine Or.inr ?_
        obtain ⟨h1, h2⟩ := hguard
        exact ⟨List.isEmpty_iff.mp h1, List.isEmpty_iff.mp h2⟩
      · rw [if_neg hguard] at h
        cases hp : bfsPass P mm mc md sA eA st with
        | error e => rw [hp] at h; simp at h
        | ok res =>
          obtain ⟨ores, stA⟩ := res
          rw [hp] at h
          cases ores with
          | some r0 => simp at h
          | none =>
            rcases ih stA st2 h with hiter | hempty
            · have := (hpass st stA hp).1
              exact Or.inl (by omega)
            · exact Or.inr hempty

theorem bfsPass_budget_accounting_witness :
    (seedAfter.iterations = seedState.iterations + 1 ∧
      seedAfter.pops = seedState.pops + (if seedState.qF.isEmpty then 0 else 1) +
        (if seedState.qB.isEmpty then 0 else 1)) ∧
    bfsLoop provEmptyFilm 30 20 4 ⟨1, "N", none⟩ ⟨2, "N", none⟩ 0 seedAfter =
      Except.ok (none, seedAfter) ∧
    bfsLoop provEmptyFilm 30 20 4 ⟨1, "N", none⟩ ⟨2, "N", none⟩ 9 seedAfter =
      Except.ok (none, seedAfter) ∧
    (seedAfter.iterations = seedState.iterations + 1 ∨
      (seedAfter.qF = [] ∧ seedAfter.qB = [])) :=
  ⟨(bfsPass_budget_accounting provEmptyFilm 30 20 4 ⟨1, "N", none⟩ ⟨2, "N", none⟩).1
      seedState seedAfter rfl,
   (bfsPass_budget_accounting provEmptyFilm 30 20 4 ⟨1, "N", none⟩ ⟨2, "N", none⟩).2.1
      seedAfter,
   (bfsPass_budget_accounting provEmptyFilm 30 20 4 ⟨1, "N", none⟩ ⟨2, "N", none⟩).2.2.1
      9 seedAfter rfl rfl,
   (bfsPass_budget_accounting provEmptyFilm 30 20 4 ⟨1, "N", none⟩ ⟨2, "N", none⟩).2.2.2
      1 seedState seedAfter rfl⟩

/-! # Claim C6: failure tolerance during the search -/

/-- C6 counterexample.  In `provFilmographyError` the search reaches actor 3
whose filmography fetch fails: the error is NOT caught — it aborts the whole
search with an upstream error.  With the identical graph where that fetch
returns an empty list (`provFilmographyEmpty`, the skip the claim
describes), every phase completes and the caller sees the not-found error
instead. -/
theorem findPath_filmography_error_aborts :
    findPath provFilmographyError [] 1 2 = (Except.error FindError.upstream, []) ∧
    findPath provFilmographyEmpty [] 1 2 = (Except.error FindError.notFound, []) :=
  ⟨rfl, rfl⟩

/-- C6 amended.  A provider error fetching one movie's cast during frontier
expansion is caught and that movie is skipped — it contributes no new edges
and leaves the frontier and visited map untouched — and the caller sees the
not-found error only when all three escalation phases complete without a
match.  (A provider error fetching a popped actor's filmography, by
contrast, is not caught and aborts the search, as the counterexample
shows.) -/
theorem castError_skipped_notFound_after_phases :
    (∀ (P : Provider) (isFwd : Bool) (sA eA : Actor) (current : QueueItem)
      (maxCast : Nat) (otherVis : VList) (movie : Movie) (vis : VList)
      (q : List QueueItem) (e : Unit),
      P.getMovieCast movie.id = Except.error e →
      processMovie P isFwd sA eA current maxCast otherVis movie vis q =
        (CastOut.nofind, vis, q)) ∧
    (∀ (P : Provider) (s : PathCache) (a1 a2 : Nat) (s2 : PathCache),
      findPath P s a1 a2 = (Except.error FindError.notFound, s2) →
      ∃ startA endA st1 st2x st3,
        P.getActorDetails a1 = Except.ok startA ∧
        P.getActorDetails a2 = Except.ok endA ∧
        tryBidirectionalBFS P a1 a2 startA endA 30 20 4 250 =
          Except.ok (none, st1) ∧
        tryBidirectionalBFS P a1 a2 startA endA 100 100 6 1000 =
          Except.ok (none, st2x) ∧
        tryBidirectionalBFS P a1 a2 startA endA 500 500 8 2000 =
          Except.ok (none, st3)) := by
  constructor
  · intro P isFwd sA eA current maxCast otherVis movie vis q e he
    unfold processMovie
    rw [he]
  · intro P s a1 a2 s2 h
    unfold findPath at h
    cases hc : getPathResult s a1 a2 with
    | some cached =>
      rw [hc] at h
      simp at h
    | none =>
      rw [hc] at h
      simp only [] at h
      by_cases he : a1 = a2
      · rw [if_pos he] at h
        cases hd : P.getActorDetails a1 with
        | error e => rw [hd] at h; simp at h
        | ok actor => rw [hd] at h; simp at h
      · rw [if_neg he] at h
        cases hd1 : P.getActorDetails a1 with
        | error e => rw [hd1] at h; simp at h
        | ok startA =>
          rw [hd1] at h
          simp only [] at h
          cases hd2 : P.getActorDetails a2 with
          | error e => rw [hd2] at h; simp at h
          | ok endA =>
            rw [hd2] at h
            simp only [] at h
            cases hdc : directCheck P a1 a2 with
            | some m => rw [hdc] at h; simp at h
            | none =>
              rw [hdc] at h
              simp only [] at h
              cases hb1 : tryBidirectionalBFS P a1 a2 startA endA 30 20 4 250 with
              | error e => rw [hb1] at h; simp at h
              | ok res1 =>
                obtain ⟨o1, st1⟩ := res1
                rw [hb1] at h
                cases o1 with
                | some r1 => simp at h
                | none =>
                  simp only [] at h
                  cases hb2 : tryBidirectionalBFS P a1 a2 startA endA 100 100 6 1000 with
                  | error e => rw [hb2] at h; simp at h
                  | ok res2 =>
                    obtain ⟨o2, st2x⟩ := res2
                    rw [hb2] at h
                    cases o2 with
                    | some r2 => simp at h
                    | none =>
                      simp only [] at h
                      cases hb3 : tryBidirectionalBFS P a1 a2 startA endA 500 500 8 2000 with
                      | error e => rw [hb3] at h; simp at h
                      | ok res3 =>
                        obtain ⟨o3, st3⟩ := res3
                        rw [hb3] at h
                        cases o3 with
                        | some r3 => simp at h
                        | none =>
                          exact ⟨startA, endA, st1, st2x, st3, rfl, rfl, hb1, hb2, hb3⟩

theorem castError_skipped_witness :
    processMovie provCastError true ⟨1, "N", none⟩ ⟨2, "N", none⟩ ⟨1, []⟩ 20
      [(2, ⟨2, []⟩)] ⟨7, "B", none, none⟩ [(1, ⟨1, []⟩)] [] =
      (CastOut.nofind, [(1, ⟨1, []⟩)], []) ∧
    (∃ startA endA st1 st2x st3,
      provFilmographyEmpty.getActorDetails 1 = Except.ok startA ∧
      provFilmographyEmpty.getActorDetails 2 = Except.ok endA ∧
      tryBidirectionalBFS provFilmographyEmpty 1 2 startA endA 30 20 4 250 =
        Except.ok (none, st1) ∧
      tryBidirectionalBFS provFilmographyEmpty 1 2 startA endA 100 100 6 1000 =
        Except.ok (none, st2x) ∧
      tryBidirectionalBFS provFilmographyEmpty 1 2 startA endA 500 500 8 2000 =
        Except.ok (none, st3)) :=
  ⟨castError_skipped_notFound_after_phases.1 provCastError true ⟨1, "N", none⟩
      ⟨2, "N", none⟩ ⟨1, []⟩ 20 [(2, ⟨2, []⟩)] ⟨7, "B", none, none⟩
      [(1, ⟨1, []⟩)] [] () rfl,
   castError_skipped_notFound_after_phases.2 provFilmographyEmpty [] 1 2 [] rfl⟩

/-! # Frontier invariant preservation -/

theorem subset_cons_self {α : Type} (a : α) (l : List α) : l ⊆ a :: l :=
  fun _ hx => List.mem_cons_of_mem _ hx

theorem itemOK_mono {origin : Actor} {ks ks2 : List Nat} {it : QueueItem}
    (hsub : ks ⊆ ks2) (h : ItemOK origin ks it) : ItemOK origin ks2 it := by
  rcases h with hdeg | ⟨ids, gp, hids⟩
  · exact Or.inl hdeg
  · exact Or.inr ⟨ids, gp, fun x hx => hsub (hids hx)⟩

theorem extendPath_nil (o : Actor) (m : Movie) (a : Actor) :
    extendPath [] o m a = [PathStep.actor o, PathStep.movie m, PathStep.actor a] := rfl

theorem extendPath_ne_nil (base : List PathStep) (o : Actor) (m : Movie) (a : Actor)
    (h : base ≠ []) :
    extendPath base o m a = base ++ [PathStep.movie m, PathStep.actor a] := by
  cases base with
  | nil => exact absurd rfl h
  | cons x xs => rfl

theorem reversedReduced_nil (meetId : Nat) (endD : Actor) :
    reversedReduced [] meetId endD = [] := rfl

theorem reversedReduced_ne_nil (p : List PathStep) (meetId : Nat) (endD : Actor)
    (h : p ≠ []) :
    reversedReduced p meetId endD =
      p.reverse.filterMap (reduceStep meetId endD) ++ [PathStep.actor endD] := by
  cases p with
  | nil => exact absurd rfl h
  | cons x xs => rfl

theorem castLoop_preserves (P : Provider) (hP : Coherent P) (isFwd : Bool)
    (startA endA : Actor) (current : QueueItem) (movie : Movie) (otherVis : VList)
    (hOK : ∀ kv ∈ otherVis, (kv : Nat × QueueItem).2.actorId = kv.1 ∧
      ItemOK (targetData isFwd startA endA) (keys otherVis) kv.2) :
    ∀ (cs : List CastMember) (vis : VList) (q : List QueueItem),
      VisInv (originData isFwd startA endA) vis →
      QueueOK (originData isFwd startA endA) (keys vis) q →
      ItemOK (originData isFwd startA endA) (keys vis) current →
      ∀ (out : CastOut) (vis2 : VList) (q2 : List QueueItem),
        castLoop P isFwd startA endA current movie otherVis cs vis q = (out, vis2, q2) →
        VisInv (originData isFwd startA endA) vis2 ∧
        QueueOK (originData isFwd startA endA) (keys vis2) q2 ∧
        keys vis ⊆ keys vis2 ∧
        ∀ (pth : List PathStep) (d : Int), out = CastOut.found pth d → chain pth = true := by
  intro cs
  induction cs with
  | nil =>
    intro vis q hv hq hcur out vis2 q2 h
    simp only [castLoop, Prod.mk.injEq] at h
    obtain ⟨hoo, hvv, hqq⟩ := h
    subst hoo
    subst hvv
    subst hqq
    exact ⟨hv, hq, fun x hx => hx, fun pth d hfd => by simp at hfd⟩
  | cons c rest ih =>
    intro vis q hv hq hcur out vis2 q2 h
    unfold castLoop at h
    by_cases h1 : c.id = current.actorId
    · rw [if_pos h1] at h
      exact ih vis q hv hq hcur out vis2 q2 h
    · rw [if_neg h1] at h
      cases ho : alookup otherVis c.id with
      | some other =>
        rw [ho] at h
        cases hdet : P.getActorDetails c.id with
        | error e =>
          rw [hdet] at h
          simp only [Prod.mk.injEq] at h
          obtain ⟨hoo, hvv, hqq⟩ := h
          subst hoo
          subst hvv
          subst hqq
          exact ⟨hv, hq, fun x hx => hx, fun pth d hfd => by simp at hfd⟩
        | ok meetingActor =>
          rw [hdet] at h
          simp only [Prod.mk.injEq] at h
          obtain ⟨hoo, hvv, hqq⟩ := h
          subst hoo
          subst hvv
          subst hqq
          refine ⟨hv, hq, fun x hx => hx, ?_⟩
          intro pth d hfd
          simp only [CastOut.found.injEq] at hfd
          obtain ⟨hpth, _⟩ := hfd
          subst hpth
          obtain ⟨hokey, hoitem⟩ := hOK (c.id, other) (alookup_some_mem otherVis c.id other ho)
          have hchain1 : chain (extendPath current.path (originData isFwd startA endA)
              movie meetingActor) = true := by
            rcases hcur with ⟨hpe, _⟩ | ⟨ids, gp, _⟩
            · rw [hpe, extendPath_nil]
              rfl
            · rw [extendPath_ne_nil _ _ _ _ (gp_ne_nil gp)]
              exact chain_append_movie_actor _ _ _ (gp_chain gp)
          have hchain2 : tchain (reversedReduced other.path c.id
              (targetData isFwd startA endA)) = true := by
            rcases hoitem with ⟨hpe, _⟩ | ⟨ids2, gp2, _⟩
            · rw [hpe, reversedReduced_nil]
              rfl
            · rw [reversedReduced_ne_nil _ _ _ (gp_ne_nil gp2)]
              rw [hokey] at gp2
              exact gp_reduce_tchain _ gp2
          unfold meetingPath
          exact chain_append_tchain _ _ hchain1 hchain2
      | none =>
        rw [ho] at h
        by_cases h2 : (alookup vis c.id).isSome = true
        · rw [if_pos h2] at h
          exact ih vis q hv hq hcur out vis2 q2 h
        · rw [if_neg h2] at h
          cases hdet : P.getActorDetails c.id with
          | error e =>
            rw [hdet] at h
            simp only [Prod.mk.injEq] at h
            obtain ⟨hoo, hvv, hqq⟩ := h
            subst hoo
            subst hvv
            subst hqq
            exact ⟨hv, hq, fun x hx => hx, fun pth d hfd => by simp at hfd⟩
          | ok nextActor =>
            rw [hdet] at h
            have hnone : alookup vis c.id = none := by
              cases halo : alookup vis c.id with
              | none => rfl
              | some it => rw [halo] at h2; simp at h2
            have hcnotin : c.id ∉ keys vis := (alookup_eq_none_iff vis c.id).mp hnone
            have hnid : nextActor.id = c.id := hP c.id nextActor hdet
            have hnew : ItemOK (originData isFwd startA endA) (c.id :: keys vis)
                ⟨c.id, extendPath current.path (originData isFwd startA endA)
                  movie nextActor⟩ := by
              rcases hcur with ⟨hpe, hid⟩ | ⟨ids, gp, hsub⟩
              · refine Or.inr ⟨[(originData isFwd startA endA).id, nextActor.id], ?_, ?_⟩
                · show GoodPath (originData isFwd startA endA)
                    (extendPath current.path (originData isFwd startA endA) movie nextActor)
                    c.id [(originData isFwd startA endA).id, nextActor.id]
                  rw [hpe, extendPath_nil, ← hnid]
                  refine GoodPath.base movie nextActor ?_
                  rw [hnid]
                  intro hcontra
                  exact hcnotin (hcontra ▸ hv.originKey)
                · intro x hx
                  rcases List.mem_cons.mp hx with hx1 | hx2
                  · exact List.mem_cons_of_mem _ (hx1 ▸ hv.originKey)
                  · have : x = nextActor.id := by simpa using hx2
                    rw [this, hnid]
                    exact List.mem_cons_self _ _
              · refine Or.inr ⟨ids ++ [nextActor.id], ?_, ?_⟩
                · show GoodPath (originData isFwd startA endA)
                    (extendPath current.path (originData isFwd startA endA) movie nextActor)
                    c.id (ids ++ [nextActor.id])
                  rw [extendPath_ne_nil _ _ _ _ (gp_ne_nil gp), ← hnid]
                  refine GoodPath.extend _ _ _ movie nextActor gp ?_
                  intro hm
                  exact hcnotin (hnid ▸ hsub hm)
                · intro x hx
                  rcases List.mem_append.mp hx with hx1 | hx2
                  · exact List.mem_cons_of_mem _ (hsub hx1)
                  · have : x = nextActor.id := by simpa using hx2
                    rw [this, hnid]
                    exact List.mem_cons_self _ _
            have hv2 : VisInv (originData isFwd startA endA)
                ((c.id, ⟨c.id, extendPath current.path (originData isFwd startA endA)
                  movie nextActor⟩) :: vis) := by
              refine ⟨?_, ?_, ?_⟩
              · intro kv hkv
                rcases List.mem_cons.mp hkv with hkv1 | hkv2
                · rw [hkv1]
                · exact hv.itemKey kv hkv2
              · intro kv hkv
                rcases List.mem_cons.mp hkv with hkv1 | hkv2
                · rw [hkv1]
                  exact hnew
                · exact itemOK_mono (subset_cons_self _ _) (hv.itemOK kv hkv2)
              · exact List.mem_cons_of_mem _ hv.originKey
            have hq2 : QueueOK (originData isFwd startA endA)
                (c.id :: keys vis)
                (q ++ [⟨c.id, extendPath current.path (originData isFwd startA endA)
                  movie nextActor⟩]) := by
              intro it hit
              rcases List.mem_append.mp hit with hit1 | hit2
              · exact itemOK_mono (subset_cons_self _ _) (hq it hit1)
              · have : it = ⟨c.id, extendPath current.path (originData isFwd startA endA)
                  movie nextActor⟩ := by simpa using hit2
                rw [this]
                exact hnew
            have hcur2 : ItemOK (originData isFwd startA endA) (c.id :: keys vis) current :=
              itemOK_mono (subset_cons_self _ _) hcur
            have hres := ih _ _ hv2 hq2 hcur2 out vis2 q2 h
            exact ⟨hres.1, hres.2.1,
              fun x hx => hres.2.2.1 (List.mem_cons_of_mem _ hx), hres.2.2.2⟩

theorem processMovie_preserves (P : Provider) (hP : Coherent P) (isFwd : Bool)
    (startA endA : Actor) (current : QueueItem) (maxCast : Nat) (otherVis : VList)
    (hOK : ∀ kv ∈ otherVis, (kv : Nat × QueueItem).2.actorId = kv.1 ∧
      ItemOK (targetData isFwd startA endA) (keys otherVis) kv.2)
    (movie : Movie) (vis : VList) (q : List QueueItem)
    (hv : VisInv (originData isFwd startA endA) vis)
    (hq : QueueOK (originData isFwd startA endA) (keys vis) q)
    (hcur : ItemOK (originData isFwd startA endA) (keys vis) current)
    (out : CastOut) (vis2 : VList) (q2 : List QueueItem)
    (h : processMovie P isFwd startA endA current maxCast otherVis movie vis q =
      (out, vis2, q2)) :
    VisInv (originData isFwd startA endA) vis2 ∧
    QueueOK (originData isFwd startA endA) (keys vis2) q2 ∧
    keys vis ⊆ keys vis2 ∧
    ∀ (pth : List PathStep) (d : Int), out = CastOut.found pth d → chain pth = true := by
  unfold processMovie at h
  cases hc : P.getMovieCast movie.id with
  | error e =>
    rw [hc] at h
    simp only [Prod.mk.injEq] at h
    obtain ⟨hoo, hvv, hqq⟩ := h
    subst hoo
    subst hvv
    subst hqq
    exact ⟨hv, hq, fun x hx => hx, fun pth d hfd => by simp at hfd⟩
  | ok cast =>
    rw [hc] at h
    exact castLoop_preserves P hP isFwd startA endA current movie otherVis hOK
      (cast.take maxCast) vis q hv hq hcur out vis2 q2 h

theorem runBatch_preserves (P : Provider) (hP : Coherent P) (isFwd : Bool)
    (startA endA : Actor) (current : QueueItem) (maxCast : Nat) (otherVis : VList)
    (hOK : ∀ kv ∈ otherVis, (kv : Nat × QueueItem).2.actorId = kv.1 ∧
      ItemOK (targetData isFwd startA endA) (keys otherVis) kv.2) :
    ∀ (batch : List Movie) (vis : VList) (q : List QueueItem),
      VisInv (originData isFwd startA endA) vis →
      QueueOK (originData isFwd startA endA) (keys vis) q →
      ItemOK (originData isFwd startA endA) (keys vis) current →
      ∀ (out : Option (List PathStep × Int)) (vis2 : VList) (q2 : List QueueItem),
        runBatch P isFwd startA endA current maxCast otherVis batch vis q =
          (out, vis2, q2) →
        VisInv (originData isFwd startA endA) vis2 ∧
        QueueOK (originData isFwd startA endA) (keys vis2) q2 ∧
        keys vis ⊆ keys vis2 ∧
        ∀ (pth : List PathStep) (d : Int), out = some (pth, d) → chain pth = true := by
  intro batch
  induction batch with
  | nil =>
    intro vis q hv hq hcur out vis2 q2 h
    simp only [runBatch, Prod.mk.injEq] at h
    obtain ⟨hoo, hvv, hqq⟩ := h
    subst hoo
    subst hvv
    subst hqq
    exact ⟨hv, hq, fun x hx => hx, fun pth d hfd => by simp at hfd⟩
  | cons m rest ih =>
    intro vis q hv hq hcur out vis2 q2 h
    unfold runBatch at h
    rcases hpm : processMovie P isFwd startA endA current maxCast otherVis m vis q with
      ⟨outA, visA, qA⟩
    rw [hpm] at h
    dsimp only at h
    rcases hrb : runBatch P isFwd startA endA current maxCast otherVis rest visA qA with
      ⟨restOut, visB, qB⟩
    rw [hrb] at h
    dsimp only at h
    have hA := processMovie_preserves P hP isFwd startA endA current maxCast otherVis hOK
      m vis q hv hq hcur outA visA qA hpm
    have hcurA : ItemOK (originData isFwd startA endA) (keys visA) current :=
      itemOK_mono hA.2.2.1 hcur
    have hB := ih visA qA hA.1 hA.2.1 hcurA restOut visB qB hrb
    simp only [Prod.mk.injEq] at h
    obtain ⟨hoo, hvv, hqq⟩ := h
    subst hvv
    subst hqq
    refine ⟨hB.1, hB.2.1, fun x hx => hB.2.2.1 (hA.2.2.1 hx), ?_⟩
    intro pth d hfd
    cases outA with
    | found p0 d0 =>
      simp only [] at hoo
      rw [← hoo] at hfd
      simp only [Option.some.injEq, Prod.mk.injEq] at hfd
      obtain ⟨hp0, _⟩ := hfd
      subst hp0
      exact hA.2.2.2 p0 d0 rfl
    | nofind =>
      simp only [] at hoo
      rw [← hoo] at hfd
      exact hB.2.2.2 pth d hfd

theorem movieBatches_preserves (P : Provider) (hP : Coherent P) (isFwd : Bool)
    (startA endA : Actor) (current : QueueItem) (maxCast : Nat) (otherVis : VList)
    (hOK : ∀ kv ∈ otherVis, (kv : Nat × QueueItem).2.actorId = kv.1 ∧
      ItemOK (targetData isFwd startA endA) (keys otherVis) kv.2) :
    ∀ (fuel : Nat) (ms : List Movie) (vis : VList) (q : List QueueItem),
      VisInv (originData isFwd startA endA) vis →
      QueueOK (originData isFwd startA endA) (keys vis) q →
      ItemOK (originData isFwd startA endA) (keys vis) current →
      ∀ (out : Option (List PathStep × Int)) (vis2 : VList) (q2 : List QueueItem),
        movieBatches P isFwd startA endA current maxCast otherVis fuel ms vis q =
          (out, vis2, q2) →
        VisInv (originData isFwd startA endA) vis2 ∧
        QueueOK (originData isFwd startA endA) (keys vis2) q2 ∧
        ∀ (pth : List PathStep) (d : Int), out = some (pth, d) → chain pth = true := by
  intro fuel
  induction fuel with
  | zero =>
    intro ms vis q hv hq hcur out vis2 q2 h
    cases ms with
    | nil =>
      simp only [movieBatches, Prod.mk.injEq] at h
      obtain ⟨hoo, hvv, hqq⟩ := h
      subst hoo
      subst hvv
      subst hqq
      exact ⟨hv, hq, fun pth d hfd => by simp at hfd⟩
    | cons m rest =>
      simp only [movieBatches, Prod.mk.injEq] at h
      obtain ⟨hoo, hvv, hqq⟩ := h
      subst hoo
      subst hvv
      subst hqq
      exact ⟨hv, hq, fun pth d hfd => by simp at hfd⟩
  | succ n ih =>
    intro ms vis q hv hq hcur out vis2 q2 h
    cases ms with
    | nil =>
      simp only [movieBatches, Prod.mk.injEq] at h
      obtain ⟨hoo, hvv, hqq⟩ := h
      subst hoo
      subst hvv
      subst hqq
      exact ⟨hv, hq, fun pth d hfd => by simp at hfd⟩
    | cons m rest =>
      unfold movieBatches at h
      rcases hrb : runBatch P isFwd startA endA current maxCast otherVis
          ((m :: rest).take 5) vis q with ⟨outA, visA, qA⟩
      rw [hrb] at h
      dsimp only at h
      have hA := runBatch_preserves P hP isFwd startA endA current maxCast otherVis hOK
        ((m :: rest).take 5) vis q hv hq hcur outA visA qA hrb
      cases outA with
      | some f =>
        dsimp only at h
        simp only [Prod.mk.injEq] at h
        obtain ⟨hoo, hvv, hqq⟩ := h
        subst hvv
        subst hqq
        refine ⟨hA.1, hA.2.1, ?_⟩
        intro pth d hfd
        rw [← hoo] at hfd
        exact hA.2.2.2 pth d hfd
      | none =>
        have hcurA : ItemOK (originData isFwd startA endA) (keys visA) current :=
          itemOK_mono hA.2.2.1 hcur
        have hB := ih ((m :: rest).drop 5) visA qA hA.1 hA.2.1 hcurA out vis2 q2 h
        exact hB

theorem expandDirection_some_chain (P : Provider) (hP : Coherent P) (mm mc md : Nat)
    (startA endA : Actor) (isFwd : Bool) (q : List QueueItem) (vis otherVis : VList)
    (hOK : ∀ kv ∈ otherVis, (kv : Nat × QueueItem).2.actorId = kv.1 ∧
      ItemOK (targetData isFwd startA endA) (keys otherVis) kv.2)
    (hv : VisInv (originData isFwd startA endA) vis)
    (hq : QueueOK (originData isFwd startA endA) (keys vis) q)
    (r : PathResult) (vis2 : VList) (q2 : List QueueItem)
    (h : expandDirection P mm mc md startA endA isFwd q vis otherVis =
      Except.ok (some r, vis2, q2)) :
    chain r.path = true := by
  unfold expandDirection at h
  cases q with
  | nil => simp at h
  | cons current qrest =>
    dsimp only at h
    by_cases hdep : countActors current.path ≥ md
    · rw [if_pos hdep] at h
      simp at h
    · rw [if_neg hdep] at h
      cases hf : P.getActorFilmography current.actorId with
      | error e => rw [hf] at h; simp at h
      | ok actorMovies =>
        rw [hf] at h
        simp only [] at h
        rcases hmb : movieBatches P isFwd startA endA current mc otherVis
            (actorMovies.take mm).length (actorMovies.take mm) vis qrest with
          ⟨out, visA, qA⟩
        rw [hmb] at h
        have hcur : ItemOK (originData isFwd startA endA) (keys vis) current :=
          hq current (List.mem_cons_self _ _)
        have hqrest : QueueOK (originData isFwd startA endA) (keys vis) qrest :=
          fun it hit => hq it (List.mem_cons_of_mem _ hit)
        have hA := movieBatches_preserves P hP isFwd startA endA current mc otherVis hOK
          (actorMovies.take mm).length (actorMovies.take mm) vis qrest hv hqrest hcur
          out visA qA hmb
        cases out with
        | none => simp at h
        | some f =>
          obtain ⟨p0, d0⟩ := f
          simp only [] at h
          cases hbf : buildFinalPath P p0 with
          | error e => rw [hbf] at h; simp at h
          | ok fp =>
            rw [hbf] at h
            simp only [Except.ok.injEq, Prod.mk.injEq, Option.some.injEq] at h
            obtain ⟨hr, _, _⟩ := h
            subst hr
            have hraw : chain p0 = true := hA.2.2 p0 d0 rfl
            calc chain (⟨fp, d0⟩ : PathResult).path
                = chain p0 := buildFinalPath_chain P p0 fp hbf
              _ = true := hraw

theorem expandDirection_none_preserves (P : Provider) (hP : Coherent P) (mm mc md : Nat)
    (startA endA : Actor) (isFwd : Bool) (q : List QueueItem) (vis otherVis : VList)
    (hOK : ∀ kv ∈ otherVis, (kv : Nat × QueueItem).2.actorId = kv.1 ∧
      ItemOK (targetData isFwd startA endA) (keys otherVis) kv.2)
    (hv : VisInv (originData isFwd startA endA) vis)
    (hq : QueueOK (originData isFwd startA endA) (keys vis) q)
    (vis2 : VList) (q2 : List QueueItem)
    (h : expandDirection P mm mc md startA endA isFwd q vis otherVis =
      Except.ok (none, vis2, q2)) :
    VisInv (originData isFwd startA endA) vis2 ∧
    QueueOK (originData isFwd startA endA) (keys vis2) q2 := by
  unfold expandDirection at h
  cases q with
  | nil =>
    simp only [Except.ok.injEq, Prod.mk.injEq] at h
    obtain ⟨_, hvv, hqq⟩ := h
    subst hvv
    subst hqq
    exact ⟨hv, fun it hit => by simp at hit⟩
  | cons current qrest =>
    have hcur : ItemOK (originData isFwd startA endA) (keys vis) current :=
      hq current (List.mem_cons_self _ _)
    have hqrest : QueueOK (originData isFwd startA endA) (keys vis) qrest :=
      fun it hit => hq it (List.mem_cons_of_mem _ hit)
    dsimp only at h
    by_cases hdep : countActors current.path ≥ md
    · rw [if_pos hdep] at h
      simp only [Except.ok.injEq, Prod.mk.injEq] at h
      obtain ⟨_, hvv, hqq⟩ := h
      subst hvv
      subst hqq
      exact ⟨hv, hqrest⟩
    · rw [if_neg hdep] at h
      cases hf : P.getActorFilmography current.actorId with
      | error e => rw [hf] at h; simp at h
      | ok actorMovies =>
        rw [hf] at h
        simp only [] at h
        rcases hmb : movieBatches P isFwd startA endA current mc otherVis
            (actorMovies.take mm).length (actorMovies.take mm) vis qrest with
          ⟨out, visA, qA⟩
        rw [hmb] at h
        have hA := movieBatches_preserves P hP isFwd startA endA current mc otherVis hOK
          (actorMovies.take mm).length (actorMovies.take mm) vis qrest hv hqrest hcur
          out visA qA hmb
        cases out with
        | some f =>
          obtain ⟨p0, d0⟩ := f
          simp only [] at h
          cases hbf : buildFinalPath P p0 with
          | error e => rw [hbf] at h; simp at h
          | ok fp => rw [hbf] at h; simp at h
        | none =>
          simp only [Except.ok.injEq, Prod.mk.injEq] at h
          obtain ⟨_, hvv, hqq⟩ := h
          subst hvv
          subst hqq
          exact ⟨hA.1, hA.2.1⟩

theorem visInv_pairs {origin : Actor} {vis : VList} (hv : VisInv origin vis) :
    ∀ kv ∈ vis, (kv : Nat × QueueItem).2.actorId = kv.1 ∧
      ItemOK origin (keys vis) kv.2 :=
  fun kv hkv => ⟨hv.itemKey kv hkv, hv.itemOK kv hkv⟩

theorem bfsBackward_some_chain (P : Provider) (hP : Coherent P) (mm mc md : Nat)
    (startA endA : Actor) (st : BfsState) (hst : BfsOK startA endA st)
    (r : PathResult) (st2 : BfsState)
    (h : bfsBackward P mm mc md startA endA st = Except.ok (some r, st2)) :
    chain r.path = true := by
  obtain ⟨qF, qB, visF, visB, its, pps⟩ := st
  obtain ⟨hvF, hqF, hvB, hqB⟩ := hst
  unfold bfsBackward at h
  dsimp only at h
  cases qB with
  | nil => simp at h
  | cons b qbrest =>
    cases hE : expandDirection P mm mc md startA endA false (b :: qbrest) visB visF with
    | error e => rw [hE] at h; simp at h
    | ok res =>
      obtain ⟨ores, visB2, qB2⟩ := res
      rw [hE] at h
      dsimp only at h
      cases ores with
      | none => simp at h
      | some r0 =>
        simp only [Except.ok.injEq, Prod.mk.injEq, Option.some.injEq] at h
        obtain ⟨hres, _⟩ := h
        subst hres
        exact expandDirection_some_chain P hP mm mc md startA endA false (b :: qbrest)
          visB visF (visInv_pairs hvF) hvB hqB _ visB2 qB2 hE

theorem bfsBackward_none_preserves (P : Provider) (hP : Coherent P) (mm mc md : Nat)
    (startA endA : Actor) (st : BfsState) (hst : BfsOK startA endA st)
    (st2 : BfsState)
    (h : bfsBackward P mm mc md startA endA st = Except.ok (none, st2)) :
    BfsOK startA endA st2 := by
  obtain ⟨qF, qB, visF, visB, its, pps⟩ := st
  obtain ⟨hvF, hqF, hvB, hqB⟩ := hst
  unfold bfsBackward at h
  dsimp only at h
  cases qB with
  | nil =>
    simp only [Except.ok.injEq, Prod.mk.injEq] at h
    obtain ⟨_, hst2⟩ := h
    subst hst2
    exact ⟨hvF, hqF, hvB, hqB⟩
  | cons b qbrest =>
    cases hE : expandDirection P mm mc md startA endA false (b :: qbrest) visB visF with
    | error e => rw [hE] at h; simp at h
    | ok res =>
      obtain ⟨ores, visB2, qB2⟩ := res
      rw [hE] at h
      dsimp only at h
      cases ores with
      | some r0 => simp at h
      | none =>
        simp only [Except.ok.injEq, Prod.mk.injEq] at h
        obtain ⟨_, hst2⟩ := h
        subst hst2
        have hpres := expandDirection_none_preserves P hP mm mc md startA endA false
          (b :: qbrest) visB visF (visInv_pairs hvF) hvB hqB visB2 qB2 hE
        exact ⟨hvF, hqF, hpres.1, hpres.2⟩

theorem bfsPass_some_chain (P : Provider) (hP : Coherent P) (mm mc md : Nat)
    (startA endA : Actor) (st : BfsState) (hst : BfsOK startA endA st)
    (r : PathResult) (st2 : BfsState)
    (h : bfsPass P mm mc md startA endA st = Except.ok (some r, st2)) :
    chain r.path = true := by
  obtain ⟨qF, qB, visF, visB, its, pps⟩ := st
  obtain ⟨hvF, hqF, hvB, hqB⟩ := hst
  unfold bfsPass at h
  cases qF with
  | nil =>
    dsimp only at h
    exact bfsBackward_some_chain P hP mm mc md startA endA
      ⟨[], qB, visF, visB, its + 1, pps⟩ ⟨hvF, hqF, hvB, hqB⟩ r st2 h
  | cons f qfrest =>
    cases hE : expandDirection P mm mc md startA endA true (f :: qfrest) visF visB with
    | error e => rw [hE] at h; simp at h
    | ok res =>
      obtain ⟨ores, visF2, qF2⟩ := res
      rw [hE] at h
      dsimp only at h
      cases ores with
      | some r0 =>
        simp only [Except.ok.injEq, Prod.mk.injEq, Option.some.injEq] at h
        obtain ⟨hres, _⟩ := h
        subst hres
        exact expandDirection_some_chain P hP mm mc md startA endA true (f :: qfrest)
          visF visB (visInv_pairs hvB) hvF hqF _ visF2 qF2 hE
      | none =>
        have hpres := expandDirection_none_preserves P hP mm mc md startA endA true
          (f :: qfrest) visF visB (visInv_pairs hvB) hvF hqF visF2 qF2 hE
        exact bfsBackward_some_chain P hP mm mc md startA endA
          ⟨qF2, qB, visF2, visB, its + 1, pps + 1⟩
          ⟨hpres.1, hpres.2, hvB, hqB⟩ r st2 h

theorem bfsPass_none_preserves (P : Provider) (hP : Coherent P) (mm mc md : Nat)
    (startA endA : Actor) (st : BfsState) (hst : BfsOK startA endA st)
    (st2 : BfsState)
    (h : bfsPass P mm mc md startA endA st = Except.ok (none, st2)) :
    BfsOK startA endA st2 := by
  obtain ⟨qF, qB, visF, visB, its, pps⟩ := st
  obtain ⟨hvF, hqF, hvB, hqB⟩ := hst
  unfold bfsPass at h
  cases qF with
  | nil =>
    dsimp only at h
    exact bfsBackward_none_preserves P hP mm mc md startA endA
      ⟨[], qB, visF, visB, its + 1, pps⟩ ⟨hvF, hqF, hvB, hqB⟩ st2 h
  | cons f qfrest =>
    cases hE : expandDirection P mm mc md startA endA true (f :: qfrest) visF visB with
    | error e => rw [hE] at h; simp at h
    | ok res =>
      obtain ⟨ores, visF2, qF2⟩ := res
      rw [hE] at h
      dsimp only at h
      cases ores with
      | some r0 => simp at h
      | none =>
        have hpres := expandDirection_none_preserves P hP mm mc md startA endA true
          (f :: qfrest) visF visB (visInv_pairs hvB) hvF hqF visF2 qF2 hE
        exact bfsBackward_none_preserves P hP mm mc md startA endA
          ⟨qF2, qB, visF2, visB, its + 1, pps + 1⟩
          ⟨hpres.1, hpres.2, hvB, hqB⟩ st2 h

theorem bfsLoop_some_chain (P : Provider) (hP : Coherent P) (mm mc md : Nat)
    (startA endA : Actor) :
    ∀ (rem : Nat) (st : BfsState), BfsOK startA endA st →
      ∀ (r : PathResult) (st2 : BfsState),
        bfsLoop P mm mc md startA endA rem st = Except.ok (some r, st2) →
        chain r.path = true := by
  intro rem
  induction rem with
  | zero =>
    intro st hst r st2 h
    simp [bfsLoop] at h
  | succ n ih =>
    intro st hst r st2 h
    unfold bfsLoop at h
    by_cases hguard : st.qF.isEmpty ∧ st.qB.isEmpty
    · rw [if_pos hguard] at h
      simp at h
    · rw [if_neg hguard] at h
      cases hp : bfsPass P mm mc md startA endA st with
      | error e => rw [hp] at h; simp at h
      | ok res =>
        obtain ⟨ores, stA⟩ := res
        rw [hp] at h
        cases ores with
        | some r0 =>
          simp only [Except.ok.injEq, Prod.mk.injEq, Option.some.injEq] at h
          obtain ⟨hres, _⟩ := h
          subst hres
          exact bfsPass_some_chain P hP mm mc md startA endA st hst _ stA hp
        | none =>
          exact ih stA (bfsPass_none_preserves P hP mm mc md startA endA st hst stA hp)
            r st2 h

theorem seedBfsOK (a1 a2 : Nat) (sA eA : Actor) (h1 : sA.id = a1) (h2 : eA.id = a2) :
    BfsOK sA eA
      ⟨[⟨a1, []⟩], [⟨a2, []⟩], [(a1, ⟨a1, []⟩)], [(a2, ⟨a2, []⟩)], 0, 0⟩ := by
  refine ⟨⟨?_, ?_, ?_⟩, ?_, ⟨?_, ?_, ?_⟩, ?_⟩
  · intro kv hkv
    have : kv = (a1, ⟨a1, []⟩) := by simpa using hkv
    rw [this]
  · intro kv hkv
    have : kv = (a1, ⟨a1, []⟩) := by simpa using hkv
    rw [this]
    exact Or.inl ⟨rfl, h1.symm⟩
  · simp [keys, h1]
  · intro it hit
    have : it = ⟨a1, []⟩ := by simpa using hit
    rw [this]
    exact Or.inl ⟨rfl, h1.symm⟩
  · intro kv hkv
    have : kv = (a2, ⟨a2, []⟩) := by simpa using hkv
    rw [this]
  · intro kv hkv
    have : kv = (a2, ⟨a2, []⟩) := by simpa using hkv
    rw [this]
    exact Or.inl ⟨rfl, h2.symm⟩
  · simp [keys, h2]
  · intro it hit
    have : it = ⟨a2, []⟩ := by simpa using hit
    rw [this]
    exact Or.inl ⟨rfl, h2.symm⟩

/-! # Claim C4: every returned path alternates actor/movie/actor -/

/-- C4.  Provided the provider returns actor records carrying the requested
id and every cached result alternates, every `PathResult` returned by
`findPath` has a step sequence satisfying `chain`: it begins and ends with
an actor step and strictly alternates actor/movie/actor/…, the single-actor
trivial case being the one-step chain.  This covers in particular the paths
assembled at a bidirectional meeting point from one side's partial path and
the reduced reverse of the other side's partial path. -/
theorem findPath_alternating (P : Provider) (s : PathCache) (a1 a2 : Nat)
    (hP : Coherent P) (hs : CacheChainOK s) (r : PathResult) (s2 : PathCache)
    (h : findPath P s a1 a2 = (Except.ok r, s2)) :
    chain r.path = true := by
  rcases findPath_ok_cases P s a1 a2 r s2 h with
    hcache | ⟨a, _, hr⟩ | ⟨A1, A2, m, _, _, hr⟩ |
    ⟨sA, eA, mm, mc, md, mi, stx, hd1, hd2, hb⟩
  · exact hs _ (alookup_some_mem s (pathKey a1 a2) _ hcache)
  · subst hr
    rfl
  · subst hr
    rfl
  · have h1 : sA.id = a1 := hP a1 sA hd1
    have h2 : eA.id = a2 := hP a2 eA hd2
    unfold tryBidirectionalBFS at hb
    exact bfsLoop_some_chain P hP mm mc md sA eA mi _
      (seedBfsOK a1 a2 sA eA h1 h2) r stx hb

theorem findPath_alternating_witness : chain twoHopPath = true :=
  findPath_alternating provTwoHop [] 1 2
    (fun i a h => by injection h with h2; rw [← h2])
    (fun kv hkv => absurd hkv (List.not_mem_nil kv))
    ⟨twoHopPath, 2⟩ [((1, 2), ⟨twoHopPath, 2⟩)] rfl

end SixDegrees
